import Mathlib

/-
Verification of the python-redis-cache library (src/redis_cache/__init__.py)
against its natural-language specification.

The development shallowly embeds the library into Lean:
  * RedisState models the key-value store: a string keyspace plus, per key,
    a sorted-set value (member/score pairs kept ascending by (score, member),
    which is the order Redis maintains and the order ZPOPMIN pops from).
  * luaCacheFn is the Lua script registered by get_cache_lua_fn: SETEX/SET of
    the value, then (when limit > 0) ZADD of the value key into the namespace
    index with the current time as score, ZCOUNT, and when over the limit a
    ZPOPMIN of the excess followed by ZREM and DEL of the popped keys.
    TTL expiry itself is behaviour of the external store over time and is not
    modelled (no claim exercises the passage of time); the ttl argument is
    carried but, like SETEX vs SET, both branches store the value.
    The TIME call is modelled by passing the clock value in as an argument.
  * CacheDecorator carries the decorator configuration.  Python uses one
    dynamically-typed serializer both for keys (applied to [args, kwargs]) and
    for values; the embedding types the two uses separately (serializer for
    keys, value_serializer for values).  Likewise original_fn is one Python
    function called either with scalar arguments or (in batch mode) with a
    vector; the embedding splits it into original_fn and original_batch_fn.
  * innerCall is the wrapped single-call path; it returns the result, the new
    store state and a trace of the effects performed (warning log, GET, call
    of the wrapped computation, Lua write).  The Python code has no
    try/except, so a failing Lua write propagates: this is modelled by the
    writeOk flag and an Except result.
  * mget_results is the RedisCache.mget batch resolver.  Its write-back of
    miss results (Lua calls queued on a pipeline) mutates only the store and
    is never consulted by the returned list, so the embedding models the
    returned list.
  * invalidate_all uses scan_iter, a cursor walk of the server keyspace; the
    embedding passes the scanned key list explicitly, and ScanFaithful states
    that this list is exactly the set of existing keys matching the pattern.
-/

namespace PyRedisCache

/-- Store state: the string keyspace and the sorted-set keyspace.  A Redis key
holds at most one of the two in reality; DEL removes a key of either kind, so
the embedding clears both maps on deletion. -/
structure RedisState where
  store : String → Option String
  zsets : String → List (String × Nat)

/-- Empty database. -/
def initState : RedisState := ⟨fun _ => none, fun _ => []⟩

/-- SET / SETEX: write a string value at a key. -/
def RedisState.setStore (st : RedisState) (k v : String) : RedisState :=
  ⟨fun x => if x = k then some v else st.store x, st.zsets⟩

/-- Replace the sorted set stored at a key. -/
def RedisState.setZset (st : RedisState) (k : String) (z : List (String × Nat)) : RedisState :=
  ⟨st.store, fun x => if x = k then z else st.zsets x⟩

/-- DEL of one key: removes the key whichever type it holds. -/
def RedisState.delKey (st : RedisState) (k : String) : RedisState :=
  ⟨fun x => if x = k then none else st.store x, fun x => if x = k then [] else st.zsets x⟩

/-- DEL of several keys. -/
def delKeys (ks : List String) (st : RedisState) : RedisState :=
  ks.foldl (fun s k => s.delKey k) st

/-- Insert a member/score pair into a sorted set kept ascending by
(score, member); ties on the score are ordered by the member string, as Redis
orders sorted sets. -/
def zinsert (e : String × Nat) : List (String × Nat) → List (String × Nat)
  | [] => [e]
  | x :: xs =>
    if x.2 < e.2 ∨ (x.2 = e.2 ∧ x.1 < e.1) then x :: zinsert e xs else e :: x :: xs

/-- ZADD: update the score of a member (removing any previous entry) and place
it at its ordered position. -/
def zadd (z : List (String × Nat)) (member : String) (score : Nat) : List (String × Nat) :=
  zinsert (member, score) (z.filter (fun p => decide (p.1 ≠ member)))

/-- ZREM: remove the listed members. -/
def zremMembers (z : List (String × Nat)) (members : List String) : List (String × Nat) :=
  z.filter (fun p => decide (p.1 ∉ members))

/-- The Lua script registered by get_cache_lua_fn.  KEYS[1] is the value key,
KEYS[2] the namespace index; ARGV carries the serialized value, the ttl and
the limit.  The TIME reply is passed in as the time argument. -/
def luaCacheFn (st : RedisState) (valueKey indexKey value : String)
    (ttl limit : Int) (time : Nat) : RedisState :=
  -- SETEX (ttl > 0) or SET: both store the value; expiry is not modelled.
  let _ := ttl
  let st1 := st.setStore valueKey value
  if 0 < limit then
    -- ZADD, then ZCOUNT over the whole range.
    let z1 := zadd (st1.zsets indexKey) valueKey time
    let over : Int := (z1.length : Int) - limit
    if 0 < over then
      -- ZPOPMIN of the excess, keeping only the members of the popped pairs.
      let staleKeys := (z1.take over.toNat).map (fun p => p.1)
      -- ZREM of the already-popped members, then DEL of their value keys.
      let z2 := zremMembers (z1.drop over.toNat) staleKeys
      delKeys staleKeys (st1.setZset indexKey z2)
    else st1.setZset indexKey z1
  else st1

/-- One insertion through the bounded-insert protocol: the value key, the
serialized value, the ttl, and the TIME observed by the script. -/
structure InsOp where
  key : String
  value : String
  ttl : Int
  time : Nat

/-- Run a sequence of atomic set-and-trim insertions against one namespace
index. -/
def runInserts (idx : String) (limit : Int) (ops : List InsOp) (st : RedisState) : RedisState :=
  ops.foldl (fun s op => luaCacheFn s op.key idx op.value op.ttl limit op.time) st

/-- Utility function chunks(iterable, n): successive n-sized chunks.  With
n = 0 the inner loop collects nothing and the generator yields nothing. -/
def chunks {α : Type} : List α → Nat → List (List α)
  | _, 0 => []
  | [], _ + 1 => []
  | a :: l, n + 1 => (a :: l).take (n + 1) :: chunks ((a :: l).drop (n + 1)) (n + 1)
termination_by l _ => l.length
decreasing_by
  simp only [List.length_drop, List.length_cons]
  omega

/-- Redis glob matching, restricted to the features the library uses: a
literal pattern with * (any sequence) and ? (any one character).  The only
pattern the library builds is a literal followed by one trailing star. -/
def globMatch : List Char → List Char → Bool
  | [], s => s.isEmpty
  | p :: ps, s =>
    if p = '*' then
      s.tails.any (fun s2 => globMatch ps s2)
    else
      match s with
      | [] => false
      | c :: s2 => if p = '?' then globMatch ps s2 else (p == c) && globMatch ps s2

/-- The base64 alphabet. -/
def b64Alphabet : String :=
  "ABCDEFGHIJKLMNOPQRSTUVWXYZabcdefghijklmnopqrstuvwxyz0123456789+/"

/-- Character of one sextet. -/
def b64Char (n : Nat) : Char := b64Alphabet.toList.getD n 'A'

/-- Standard base64 of a byte sequence, with padding, as b64encode produces. -/
def b64encodeList : List Nat → List Char
  | [] => []
  | [b1] => [b64Char (b1 / 4), b64Char (b1 % 4 * 16), '=', '=']
  | [b1, b2] => [b64Char (b1 / 4), b64Char (b1 % 4 * 16 + b2 / 16), b64Char (b2 % 16 * 4), '=']
  | b1 :: b2 :: b3 :: rest =>
    b64Char (b1 / 4) :: b64Char (b1 % 4 * 16 + b2 / 16) ::
      b64Char (b2 % 16 * 4 + b3 / 64) :: b64Char (b3 % 64) :: b64encodeList rest

/-- String form of the base64 encoding (str(b64encode(data), "utf-8")). -/
def b64encode (b : List Nat) : String := ⟨b64encodeList b⟩

/-- Output of a serializer: Python distinguishes str results from bytes-like
results with isinstance(serialized_data, str). -/
inductive SerOut where
  | str (s : String)
  | bytes (b : List Nat)
deriving DecidableEq

/-- Configuration of one decorated function (a CacheDecorator instance after
__call__ fixed the namespace and original_fn).  See the file comment for how
the dynamically-typed serializer and original_fn are split. -/
structure CacheDecorator (A K V : Type) where
  pfx : String
  nspace : String
  serializer : A × K → SerOut
  key_serializer : Option (A → K → SerOut)
  value_serializer : V → String
  deserializer : String → V
  ttl : Int
  limit : Int
  support_batch_call : Bool
  original_fn : A → K → V
  original_batch_fn : List (A ⊕ K) → List V

variable {A K V : Type}

/-- The namespace index key set in __call__. -/
def keys_key (d : CacheDecorator A K V) : String :=
  d.pfx ++ ":" ++ d.nspace ++ ":keys"

/-- Serialized key material: the custom key_serializer on (args, kwargs) when
configured, else the value serializer applied to [args, kwargs]. -/
def serialized_data (d : CacheDecorator A K V) (args : A) (kwargs : K) : SerOut :=
  match d.key_serializer with
  | some ks => ks args kwargs
  | none => d.serializer (args, kwargs)

/-- A str result is used as is; bytes are base64-encoded to a safe string. -/
def encode_serialized : SerOut → String
  | SerOut.str s => s
  | SerOut.bytes b => b64encode b

/-- CacheDecorator.get_key. -/
def get_key (d : CacheDecorator A K V) (args : A) (kwargs : K) : String :=
  d.pfx ++ ":" ++ d.nspace ++ ":" ++ encode_serialized (serialized_data d args kwargs)

/-- Observable effects of one wrapped call: the warning log for batch-mode
functions, the GET of a key, the invocation of the wrapped computation, and
the Lua write-back. -/
inductive Eff where
  | warn
  | readKey (k : String)
  | callFn
  | luaWrite (k : String)
deriving DecidableEq

/-- Miss continuation of the wrapped call: compute, serialize, write back via
the Lua script.  The Python code wraps the write in no try/except, so a
raising write (writeOk = false) propagates as an error and nothing is
returned. -/
def innerMissPath (d : CacheDecorator A K V) (writeOk : Bool) (time : Nat)
    (st : RedisState) (key : String) (args : A) (kwargs : K) :
    Except Unit (V × RedisState × List Eff) :=
  let result := d.original_fn args kwargs
  if writeOk then
    Except.ok (result,
      luaCacheFn st key (keys_key d) (d.value_serializer result) d.ttl d.limit time,
      [Eff.readKey key, Eff.callFn, Eff.luaWrite key])
  else Except.error ()

/-- The wrapped function (inner in CacheDecorator.__call__).  Batch-mode
functions log a warning and call straight through; otherwise GET by derived
key, treat a missing or falsy (empty) value as a miss, and deserialize on a
hit. -/
def innerCall (d : CacheDecorator A K V) (writeOk : Bool) (time : Nat)
    (st : RedisState) (args : A) (kwargs : K) :
    Except Unit (V × RedisState × List Eff) :=
  if d.support_batch_call then
    Except.ok (d.original_fn args kwargs, st, [Eff.warn, Eff.callFn])
  else
    let key := get_key d args kwargs
    match st.store key with
    | none => innerMissPath d writeOk time st key args kwargs
    | some s =>
      if s = "" then innerMissPath d writeOk time st key args kwargs
      else Except.ok (d.deserializer s, st, [Eff.readKey key])

/-- CacheDecorator.invalidate: pipeline of DEL on the derived key and ZREM of
it from the namespace index. -/
def invalidate (d : CacheDecorator A K V) (args : A) (kwargs : K)
    (st : RedisState) : RedisState :=
  let key := get_key d args kwargs
  (st.delKey key).setZset (keys_key d)
    (((st.delKey key).zsets (keys_key d)).filter (fun p => decide (p.1 ≠ key)))

/-- The scan pattern of invalidate_all. -/
def scan_pattern (d : CacheDecorator A K V) : String :=
  d.pfx ++ ":" ++ d.nspace ++ ":*"

/-- Contract of scan_iter: the scanned list enumerates exactly the currently
existing keys matching the pattern. -/
def ScanFaithful (d : CacheDecorator A K V) (st : RedisState) (scanned : List String) : Prop :=
  ∀ k, k ∈ scanned ↔
    (globMatch (scan_pattern d).toList k.toList = true ∧
      (st.store k ≠ none ∨ st.zsets k ≠ []))

/-- CacheDecorator.invalidate_all: delete the scanned keys in chunks of 500
per DEL command. -/
def invalidate_all (d : CacheDecorator A K V) (scanned : List String)
    (st : RedisState) : RedisState :=
  (chunks scanned 500).foldl (fun s ks => delKeys ks s) st

/-- One pending call handed to RedisCache.mget: the decorated function it
targets (by identity) and its arguments. -/
structure MCall (A K : Type) where
  fn : Nat
  args : A
  kwargs : K

/-- The key derived for one pending call (fn.instance.get_key). -/
def call_key (fns : Nat → CacheDecorator A K V) (c : MCall A K) : String :=
  get_key (fns c.fn) c.args c.kwargs

/-- The MGET lookup for one pending call. -/
def lookup (fns : Nat → CacheDecorator A K V) (st : RedisState) (c : MCall A K) :
    Option String :=
  st.store (call_key fns c)

/-- The vectorized argument of one call in a batch recomputation:
args or kwargs, with Python truthiness of args decided by aT. -/
def args_or_kwargs (aT : A → Bool) (c : MCall A K) : A ⊕ K :=
  if aT c.args then Sum.inl c.args else Sum.inr c.kwargs

/-- RedisCache._get_batch_call_result: one vectorized call for batch-capable
functions, else one scalar call per miss in group order. -/
def get_batch_call_result (aT : A → Bool) (fns : Nat → CacheDecorator A K V)
    (fid : Nat) (args_batch : List (MCall A K)) : List V :=
  if (fns fid).support_batch_call then
    (fns fid).original_batch_fn (args_batch.map (args_or_kwargs aT))
  else
    args_batch.map (fun c => (fns fid).original_fn c.args c.kwargs)

/-- Order of the miss groups: defaultdict(list) iterates function identities
in first-insertion order. -/
def firstOccur : List Nat → List Nat
  | [] => []
  | x :: xs => x :: firstOccur (xs.filter (fun y => decide (y ≠ x)))
termination_by l => l.length
decreasing_by
  exact Nat.lt_succ_of_le (List.length_filter_le _ _)

/-- The deserialized_results dictionary of RedisCache.mget as an association
list: cache hits recorded at their request index, then for each miss group
(grouped by function, in first-miss order) the recomputed results zipped
against the request indices of the group. -/
def mget_assembled (fns : Nat → CacheDecorator A K V) (aT : A → Bool)
    (deser : String → V) (st : RedisState) (calls : List (MCall A K)) :
    List (Nat × V) :=
  let keys := calls.map (call_key fns)
  let results := keys.map st.store
  let icr := (calls.zip results).enum
  let hits := icr.filterMap (fun p => (p.2.2).map (fun s => (p.1, deser s)))
  let misses := icr.filterMap
    (fun p => if p.2.2 = none then some (p.1, p.2.1) else none)
  let fn_order := firstOccur (misses.map (fun m => m.2.fn))
  let miss_results := fn_order.flatMap (fun fid =>
    let batch := misses.filter (fun m => decide (m.2.fn = fid))
    (batch.map (fun m => m.1)).zip
      (get_batch_call_result aT fns fid (batch.map (fun m => m.2))))
  hits ++ miss_results

/-- RedisCache.mget: the final list comprehension walks the populated request
indices in ascending order. -/
def mget_results (fns : Nat → CacheDecorator A K V) (aT : A → Bool)
    (deser : String → V) (st : RedisState) (calls : List (MCall A K)) : List V :=
  ((mget_assembled fns aT deser st calls).mergeSort
    (fun p q => decide (p.1 ≤ q.1))).map (fun p => p.2)

/-- Modelled from the spec (section 4.4 BatchResolver): the miss group of one
function identity, in request order. -/
def spec_miss_group (fns : Nat → CacheDecorator A K V) (st : RedisState)
    (calls : List (MCall A K)) (fid : Nat) : List (Nat × MCall A K) :=
  calls.enum.filter
    (fun q => decide (q.2.fn = fid) && decide (lookup fns st q.2 = none))

/-- Modelled from the spec (section 4.4 BatchResolver): the expected result of
one pending call.  A present value resolves by deserialization; a miss of a
batch-capable function takes the element of the one vectorized recomputation
positionally aligned with its place in the miss group; a miss of a scalar
function is recomputed directly with its own arguments. -/
def spec_result_at [Inhabited V] (fns : Nat → CacheDecorator A K V) (aT : A → Bool)
    (deser : String → V) (st : RedisState) (calls : List (MCall A K))
    (p : Nat × MCall A K) : V :=
  match lookup fns st p.2 with
  | some s => deser s
  | none =>
    let d := fns p.2.fn
    if d.support_batch_call then
      (d.original_batch_fn
          ((spec_miss_group fns st calls p.2.fn).map (fun q => args_or_kwargs aT q.2))).getD
        (List.indexOf p.1 ((spec_miss_group fns st calls p.2.fn).map (fun q => q.1)))
        default
    else d.original_fn p.2.args p.2.kwargs

/-- Modelled from the spec (section 4.4 BatchResolver): the output sequence,
index for index, expected of resolve(). -/
def spec_expected [Inhabited V] (fns : Nat → CacheDecorator A K V) (aT : A → Bool)
    (deser : String → V) (st : RedisState) (calls : List (MCall A K)) : List V :=
  calls.enum.map (spec_result_at fns aT deser st calls)

/-! Basic state lemmas. -/

lemma setStore_store (st : RedisState) (k v x : String) :
    (st.setStore k v).store x = if x = k then some v else st.store x := rfl

lemma setStore_zsets (st : RedisState) (k v x : String) :
    (st.setStore k v).zsets x = st.zsets x := rfl

lemma setZset_zsets (st : RedisState) (k : String) (z : List (String × Nat)) (x : String) :
    (st.setZset k z).zsets x = if x = k then z else st.zsets x := rfl

lemma setZset_store (st : RedisState) (k : String) (z : List (String × Nat)) (x : String) :
    (st.setZset k z).store x = st.store x := rfl

lemma delKey_store (st : RedisState) (k x : String) :
    (st.delKey k).store x = if x = k then none else st.store x := rfl

lemma delKey_zsets (st : RedisState) (k x : String) :
    (st.delKey k).zsets x = if x = k then [] else st.zsets x := rfl

lemma delKeys_cons (a : String) (l : List String) (st : RedisState) :
    delKeys (a :: l) st = delKeys l (st.delKey a) := rfl

lemma delKeys_store (ks : List String) (st : RedisState) (k : String) :
    (delKeys ks st).store k = if k ∈ ks then none else st.store k := by
  induction ks generalizing st with
  | nil => simp [delKeys]
  | cons a l ih =>
    rw [delKeys_cons, ih, delKey_store]
    by_cases h1 : k ∈ l
    · simp [h1]
    · by_cases h2 : k = a <;> simp [h1, h2]

lemma delKeys_zsets (ks : List String) (st : RedisState) (k : String) :
    (delKeys ks st).zsets k = if k ∈ ks then [] else st.zsets k := by
  induction ks generalizing st with
  | nil => simp [delKeys]
  | cons a l ih =>
    rw [delKeys_cons, ih, delKey_zsets]
    by_cases h1 : k ∈ l
    · simp [h1]
    · by_cases h2 : k = a <;> simp [h1, h2]

/-! Claim C7: batch-capable bypass. -/

/-- C7: for a function decorated with support_batch_call = true, a direct
single invocation bypasses caching entirely: it returns the raw underlying
computation on the original arguments, leaves the store untouched, performs
no store read and no store write, and emits the warning diagnostic. -/
theorem c7_batch_bypass (d : CacheDecorator A K V) (writeOk : Bool) (time : Nat)
    (st : RedisState) (args : A) (kwargs : K) (h : d.support_batch_call = true) :
    innerCall d writeOk time st args kwargs =
      Except.ok (d.original_fn args kwargs, st, [Eff.warn, Eff.callFn]) := by
  simp [innerCall, h]

/-- A concrete batch-capable decorator. -/
def dBatch : CacheDecorator Nat Nat Nat :=
  ⟨"rc", "f", fun _ => SerOut.str "x", none, fun v => toString v, fun s => s.length,
    0, 0, true, fun a k => a + k, fun l => l.map (fun _ => 0)⟩

/-- Witness for C7 at a concrete input. -/
theorem c7_batch_bypass_witness :
    dBatch.support_batch_call = true ∧
      innerCall dBatch true 0 initState 1 2 =
        Except.ok (3, initState, [Eff.warn, Eff.callFn]) :=
  ⟨rfl, c7_batch_bypass dBatch true 0 initState 1 2 rfl⟩

/-! Claim C9: key derivation. -/

/-- C9: key derivation is deterministic (it depends only on the prefix, the
namespace, and the serialized form of the arguments) and well-formed: the key
is prefix:namespace:encoded, where encoded is the serializer output itself
when it is a str and its base64 encoding when it is bytes.  The embedding of
get_key is a pure function of its inputs, so it has no side effects. -/
theorem c9_get_key_deterministic (d d' : CacheDecorator A K V) (a : A) (k : K)
    (a' : A) (k' : K) (hp : d.pfx = d'.pfx) (hn : d.nspace = d'.nspace)
    (hs : serialized_data d a k = serialized_data d' a' k') :
    get_key d a k = get_key d' a' k' ∧
    get_key d a k =
      d.pfx ++ ":" ++ d.nspace ++ ":" ++ encode_serialized (serialized_data d a k) ∧
    (∀ s, serialized_data d a k = SerOut.str s →
      get_key d a k = d.pfx ++ ":" ++ d.nspace ++ ":" ++ s) ∧
    (∀ b, serialized_data d a k = SerOut.bytes b →
      get_key d a k = d.pfx ++ ":" ++ d.nspace ++ ":" ++ b64encode b) := by
  refine ⟨?_, rfl, ?_, ?_⟩
  · simp [get_key, hp, hn, hs]
  · intro s hsd
    simp [get_key, hsd, encode_serialized]
  · intro b hsd
    simp [get_key, hsd, encode_serialized]

/-- A decorator whose value serializer yields the bytes of "Man". -/
def dKeyBytes : CacheDecorator Nat Nat Nat :=
  ⟨"rc", "ns", fun _ => SerOut.bytes [77, 97, 110], none, fun v => toString v,
    fun s => s.length, 0, 0, false, fun a k => a + k, fun l => l.map (fun _ => 0)⟩

/-- A decorator reaching the same serialized form through a custom
key_serializer instead. -/
def dKeyBytesCustom : CacheDecorator Nat Nat Nat :=
  ⟨"rc", "ns", fun _ => SerOut.str "ignored", some (fun _ _ => SerOut.bytes [77, 97, 110]),
    fun v => toString v, fun s => s.length, 0, 0, false, fun a k => a + k,
    fun l => l.map (fun _ => 0)⟩

/-- Witness for C9: the two routes derive the same key, and the bytes route
base64-encodes to the expected text. -/
theorem c9_get_key_deterministic_witness :
    dKeyBytes.pfx = dKeyBytesCustom.pfx ∧
    dKeyBytes.nspace = dKeyBytesCustom.nspace ∧
    serialized_data dKeyBytes 1 2 = serialized_data dKeyBytesCustom 3 4 ∧
    get_key dKeyBytes 1 2 = get_key dKeyBytesCustom 3 4 ∧
    get_key dKeyBytes 1 2 = "rc:ns:TWFu" :=
  ⟨rfl, rfl, by decide,
    (c9_get_key_deterministic dKeyBytes dKeyBytesCustom 1 2 3 4 rfl rfl (by decide)).1,
    rfl⟩

/-! Claim C6: write-back failure behaviour of the single-call path. -/

/-- A concrete non-batch decorator. -/
def dPlain : CacheDecorator Nat Nat Nat :=
  ⟨"rc", "g", fun _ => SerOut.str "args", none, fun v => toString v, fun s => s.length,
    0, 0, false, fun a k => a + k, fun l => l.map (fun _ => 0)⟩

/-- Counterexample to C6: the wrapped call contains no try/except, so when
the atomic set-and-trim raises on a miss, the exception propagates and the
freshly computed result is NOT returned to the caller. -/
theorem c6_counterexample :
    innerCall dPlain false 0 initState 1 2 = Except.error () ∧
      ∀ r : Nat × RedisState × List Eff,
        innerCall dPlain false 0 initState 1 2 ≠ Except.ok r := by
  constructor
  · rfl
  · intro r h
    rw [show innerCall dPlain false 0 initState 1 2 = Except.error () from rfl] at h
    cases h

/-- C6 amended: on a miss, the freshly computed result is returned exactly
when the atomic set-and-trim does not raise; when it raises, the exception
propagates to the caller and nothing is cached or returned. -/
theorem c6_amended_write_back (d : CacheDecorator A K V) (time : Nat)
    (st : RedisState) (args : A) (kwargs : K)
    (h1 : d.support_batch_call = false)
    (h2 : st.store (get_key d args kwargs) = none) :
    innerCall d false time st args kwargs = Except.error () ∧
    innerCall d true time st args kwargs =
      Except.ok (d.original_fn args kwargs,
        luaCacheFn st (get_key d args kwargs) (keys_key d)
          (d.value_serializer (d.original_fn args kwargs)) d.ttl d.limit time,
        [Eff.readKey (get_key d args kwargs), Eff.callFn,
          Eff.luaWrite (get_key d args kwargs)]) := by
  constructor
  · simp [innerCall, h1, h2, innerMissPath]
  · simp [innerCall, h1, h2, innerMissPath]

/-- Witness for the amended C6 at a concrete input. -/
theorem c6_amended_write_back_witness :
    dPlain.support_batch_call = false ∧
    initState.store (get_key dPlain 1 2) = none ∧
    (innerCall dPlain false 0 initState 1 2 = Except.error () ∧
      innerCall dPlain true 0 initState 1 2 =
        Except.ok (dPlain.original_fn 1 2,
          luaCacheFn initState (get_key dPlain 1 2) (keys_key dPlain)
            (dPlain.value_serializer (dPlain.original_fn 1 2)) dPlain.ttl dPlain.limit 0,
          [Eff.readKey (get_key dPlain 1 2), Eff.callFn,
            Eff.luaWrite (get_key dPlain 1 2)])) :=
  ⟨rfl, rfl, c6_amended_write_back dPlain 0 initState 1 2 rfl rfl⟩

/-! Claim C8: invalidate affects exactly one entry. -/

/-- C8: after invalidate(args), the value at the derived key is deleted and
that key is removed from the namespace index; every other key of the store is
unchanged (so other cached entries, of this namespace or any other, remain
hits), every other member of the index survives, and a subsequent call for
the invalidated arguments is a miss that re-invokes the computation. -/
theorem c8_invalidate_one_entry (d : CacheDecorator A K V) (args : A) (kwargs : K)
    (st : RedisState) (time : Nat)
    (hkk : get_key d args kwargs ≠ keys_key d) :
    (invalidate d args kwargs st).store (get_key d args kwargs) = none ∧
    (∀ p, p ∈ (invalidate d args kwargs st).zsets (keys_key d) ↔
      (p ∈ st.zsets (keys_key d) ∧ p.1 ≠ get_key d args kwargs)) ∧
    (∀ x, x ≠ get_key d args kwargs →
      (invalidate d args kwargs st).store x = st.store x) ∧
    (∀ zk, zk ≠ keys_key d → zk ≠ get_key d args kwargs →
      (invalidate d args kwargs st).zsets zk = st.zsets zk) ∧
    (d.support_batch_call = false →
      innerCall d true time (invalidate d args kwargs st) args kwargs =
        Except.ok (d.original_fn args kwargs,
          luaCacheFn (invalidate d args kwargs st) (get_key d args kwargs) (keys_key d)
            (d.value_serializer (d.original_fn args kwargs)) d.ttl d.limit time,
          [Eff.readKey (get_key d args kwargs), Eff.callFn,
            Eff.luaWrite (get_key d args kwargs)])) := by
  have hstore : (invalidate d args kwargs st).store (get_key d args kwargs) = none := by
    simp [invalidate, setZset_store, delKey_store]
  refine ⟨hstore, ?_, ?_, ?_, ?_⟩
  · intro p
    simp [invalidate, setZset_zsets, delKey_zsets, Ne.symm hkk, List.mem_filter]
  · intro x hx
    simp [invalidate, setZset_store, delKey_store, hx]
  · intro zk h1 h2
    simp [invalidate, setZset_zsets, delKey_zsets, h1, h2]
  · intro hb
    simp [innerCall, hb, hstore, innerMissPath]

/-- A concrete decorator whose keys separate the arguments. -/
def dInv : CacheDecorator Nat Nat Nat :=
  ⟨"rc", "h", fun _ => SerOut.str "x", some (fun a _ => SerOut.str (toString a)),
    fun v => toString v, fun s => s.length, 0, 0, false, fun a k => a + k,
    fun l => l.map (fun _ => 0)⟩

/-- A store that caches dInv at arguments 1 and 2. -/
def stInv : RedisState :=
  ((initState.setStore "rc:h:1" "v1").setStore "rc:h:2" "v2").setZset "rc:h:keys"
    [("rc:h:1", 1), ("rc:h:2", 2)]

/-- Witness for C8: invalidating argument 1 removes exactly that entry; the
entry for argument 2 is untouched. -/
theorem c8_invalidate_one_entry_witness :
    get_key dInv 1 0 ≠ keys_key dInv ∧
    ((invalidate dInv 1 0 stInv).store (get_key dInv 1 0) = none ∧
      (∀ p, p ∈ (invalidate dInv 1 0 stInv).zsets (keys_key dInv) ↔
        (p ∈ stInv.zsets (keys_key dInv) ∧ p.1 ≠ get_key dInv 1 0)) ∧
      (∀ x, x ≠ get_key dInv 1 0 →
        (invalidate dInv 1 0 stInv).store x = stInv.store x) ∧
      (∀ zk, zk ≠ keys_key dInv → zk ≠ get_key dInv 1 0 →
        (invalidate dInv 1 0 stInv).zsets zk = stInv.zsets zk) ∧
      (dInv.support_batch_call = false →
        innerCall dInv true 7 (invalidate dInv 1 0 stInv) 1 0 =
          Except.ok (dInv.original_fn 1 0,
            luaCacheFn (invalidate dInv 1 0 stInv) (get_key dInv 1 0) (keys_key dInv)
              (dInv.value_serializer (dInv.original_fn 1 0)) dInv.ttl dInv.limit 7,
            [Eff.readKey (get_key dInv 1 0), Eff.callFn,
              Eff.luaWrite (get_key dInv 1 0)]))) ∧
    (invalidate dInv 1 0 stInv).store "rc:h:2" = some "v2" :=
  ⟨by decide, c8_invalidate_one_entry dInv 1 0 stInv 7 (by decide), rfl⟩

/-! Lemmas about the sorted-set primitives and the Lua script. -/

lemma zinsert_length (e : String × Nat) (l : List (String × Nat)) :
    (zinsert e l).length = l.length + 1 := by
  induction l with
  | nil => rfl
  | cons x xs ih =>
    simp only [zinsert]
    split <;> simp [ih]

lemma zinsert_of_forall_lt (e : String × Nat) (l : List (String × Nat))
    (h : ∀ p ∈ l, p.2 < e.2) : zinsert e l = l ++ [e] := by
  induction l with
  | nil => rfl
  | cons x xs ih =>
    have hx : x.2 < e.2 := h x (by simp)
    rw [zinsert, if_pos (Or.inl hx), ih (fun p hp => h p (by simp [hp]))]
    rfl

lemma filter_ne_self (l : List (String × Nat)) (k : String)
    (h : ∀ p ∈ l, p.1 ≠ k) : l.filter (fun p => decide (p.1 ≠ k)) = l :=
  List.filter_eq_self.mpr (by intro p hp; simpa using h p hp)

/-- After one pass of the Lua script whose observed time exceeds every score
already in the index, the value just written survives (the trim can only pop
older members). -/
lemma luaCacheFn_store_fresh (st : RedisState) (valueKey indexKey value : String)
    (ttl limit : Int) (time : Nat) (hk : valueKey ≠ indexKey)
    (hts : ∀ p ∈ st.zsets indexKey, p.2 < time) :
    (luaCacheFn st valueKey indexKey value ttl limit time).store valueKey = some value := by
  rw [luaCacheFn]
  by_cases hlim : 0 < limit
  · rw [if_pos hlim]
    have hz : (st.setStore valueKey value).zsets indexKey = st.zsets indexKey := rfl
    set old := st.zsets indexKey with hold
    set old' := old.filter (fun p => decide (p.1 ≠ valueKey)) with hold'
    have hsub : ∀ p ∈ old', p.2 < time := by
      intro p hp
      exact hts p (List.mem_of_mem_filter hp)
    have hins : zadd ((st.setStore valueKey value).zsets indexKey) valueKey time =
        old' ++ [(valueKey, time)] := by
      rw [hz, zadd]
      exact zinsert_of_forall_lt (valueKey, time) old' hsub
    rw [hins]
    by_cases hover : 0 < ((old' ++ [(valueKey, time)]).length : Int) - limit
    · rw [if_pos hover]
      have hlen : ((old' ++ [(valueKey, time)]).length : Int) - limit ≤ (old'.length : Int) := by
        simp only [List.length_append, List.length_cons, List.length_nil]
        omega
      have htn : (((old' ++ [(valueKey, time)]).length : Int) - limit).toNat ≤ old'.length := by
        omega
      have htake : (old' ++ [(valueKey, time)]).take
          ((((old' ++ [(valueKey, time)]).length : Int) - limit).toNat) =
          old'.take ((((old' ++ [(valueKey, time)]).length : Int) - limit).toNat) :=
        List.take_append_of_le_length htn
      have hnotmem : valueKey ∉ ((old' ++ [(valueKey, time)]).take
          ((((old' ++ [(valueKey, time)]).length : Int) - limit).toNat)).map
            (fun p => p.1) := by
        rw [htake]
        intro hmem
        rcases List.mem_map.mp hmem with ⟨p, hp, hp1⟩
        have hp' : p ∈ old' := List.mem_of_mem_take hp
        have := List.of_mem_filter hp'
        simp only [decide_eq_true_eq] at this
        exact this hp1
      rw [delKeys_store, if_neg hnotmem, setZset_store, setStore_store, if_pos rfl]
    · rw [if_neg hover, setZset_store, setStore_store, if_pos rfl]
  · rw [if_neg hlim, setStore_store, if_pos rfl]

/-- Behaviour of the wrapped call on an absent key. -/
lemma innerCall_miss_none (d : CacheDecorator A K V) (writeOk : Bool) (time : Nat)
    (st : RedisState) (args : A) (kwargs : K) (hb : d.support_batch_call = false)
    (hres : st.store (get_key d args kwargs) = none) :
    innerCall d writeOk time st args kwargs =
      innerMissPath d writeOk time st (get_key d args kwargs) args kwargs := by
  simp [innerCall, hb, hres]

/-- Behaviour of the wrapped call on a falsy (empty) stored value: treated as
a miss. -/
lemma innerCall_miss_empty (d : CacheDecorator A K V) (writeOk : Bool) (time : Nat)
    (st : RedisState) (args : A) (kwargs : K) (hb : d.support_batch_call = false)
    (hres : st.store (get_key d args kwargs) = some "") :
    innerCall d writeOk time st args kwargs =
      innerMissPath d writeOk time st (get_key d args kwargs) args kwargs := by
  simp [innerCall, hb, hres]

/-- Behaviour of the wrapped call on a truthy hit. -/
lemma innerCall_hit (d : CacheDecorator A K V) (writeOk : Bool) (time : Nat)
    (st : RedisState) (args : A) (kwargs : K) (s : String)
    (hb : d.support_batch_call = false)
    (hres : st.store (get_key d args kwargs) = some s) (hs : s ≠ "") :
    innerCall d writeOk time st args kwargs =
      Except.ok (d.deserializer s, st, [Eff.readKey (get_key d args kwargs)]) := by
  simp [innerCall, hb, hres, hs]

/-! Claim C5: idempotent hit. -/

/-- C5: for a non-batch function, after a first call (hit or miss, and at a
time later than every score already in the namespace index), a second call
with the same arguments is a pure cache hit: it returns the same value, does
not change the store, and does not invoke the underlying computation again;
over the two calls together the computation runs at most once.  Hypotheses:
the serializers round-trip on the computed value, the serialized value is
truthy (nonempty), and the derived key differs from the index key. -/
theorem c5_idempotent_hit (d : CacheDecorator A K V) (t1 t2 : Nat) (st : RedisState)
    (args : A) (kwargs : K) (v1 : V) (st1 : RedisState) (e1 : List Eff)
    (hb : d.support_batch_call = false)
    (hrt : d.deserializer (d.value_serializer (d.original_fn args kwargs)) =
      d.original_fn args kwargs)
    (hne : d.value_serializer (d.original_fn args kwargs) ≠ "")
    (hkk : get_key d args kwargs ≠ keys_key d)
    (hts : ∀ p ∈ st.zsets (keys_key d), p.2 < t1)
    (h1 : innerCall d true t1 st args kwargs = Except.ok (v1, st1, e1)) :
    innerCall d true t2 st1 args kwargs =
      Except.ok (v1, st1, [Eff.readKey (get_key d args kwargs)]) ∧
    e1.count Eff.callFn ≤ 1 ∧
    Eff.callFn ∉ [Eff.readKey (get_key d args kwargs)] := by
  have hmiss : innerCall d true t1 st args kwargs =
      innerMissPath d true t1 st (get_key d args kwargs) args kwargs →
      innerCall d true t2 st1 args kwargs =
        Except.ok (v1, st1, [Eff.readKey (get_key d args kwargs)]) ∧
      e1.count Eff.callFn ≤ 1 := by
    intro hm
    rw [hm, innerMissPath] at h1
    simp only [if_pos rfl] at h1
    have hv1 : v1 = d.original_fn args kwargs := by
      cases h1
      rfl
    have hst1 : st1 = luaCacheFn st (get_key d args kwargs) (keys_key d)
        (d.value_serializer (d.original_fn args kwargs)) d.ttl d.limit t1 := by
      cases h1
      rfl
    have he1 : e1 = [Eff.readKey (get_key d args kwargs), Eff.callFn,
        Eff.luaWrite (get_key d args kwargs)] := by
      cases h1
      rfl
    have hstore : st1.store (get_key d args kwargs) =
        some (d.value_serializer (d.original_fn args kwargs)) := by
      rw [hst1]
      exact luaCacheFn_store_fresh st _ _ _ _ _ _ hkk hts
    constructor
    · rw [innerCall_hit d true t2 st1 args kwargs _ hb hstore hne, hrt, hv1]
    · rw [he1]
      simp [List.count_cons]
  cases hres : st.store (get_key d args kwargs) with
  | none =>
    have := hmiss (innerCall_miss_none d true t1 st args kwargs hb hres)
    exact ⟨this.1, this.2, by simp⟩
  | some s =>
    by_cases hs : s = ""
    · subst hs
      have := hmiss (innerCall_miss_empty d true t1 st args kwargs hb hres)
      exact ⟨this.1, this.2, by simp⟩
    · rw [innerCall_hit d true t1 st args kwargs s hb hres hs] at h1
      have hv1 : v1 = d.deserializer s := by
        cases h1
        rfl
      have hst1 : st1 = st := by
        cases h1
        rfl
      have he1 : e1 = [Eff.readKey (get_key d args kwargs)] := by
        cases h1
        rfl
      refine ⟨?_, ?_, by simp⟩
      · rw [hst1, innerCall_hit d true t2 st args kwargs s hb hres hs, hv1]
      · rw [he1]
        simp

/-- A concrete decorator whose serializers round-trip: values serialize to a
string of that many characters. -/
def dC5 : CacheDecorator Nat Nat Nat :=
  ⟨"rc", "c5", fun _ => SerOut.str "a12", none,
    fun v => String.mk (List.replicate v 'x'), fun s => s.length,
    0, 0, false, fun a k => a + k, fun l => l.map (fun _ => 0)⟩

/-- Witness for C5: a first (miss) call from the empty store followed by a
second call that hits without recomputing. -/
theorem c5_idempotent_hit_witness :
    dC5.support_batch_call = false ∧
    dC5.deserializer (dC5.value_serializer (dC5.original_fn 1 2)) = dC5.original_fn 1 2 ∧
    dC5.value_serializer (dC5.original_fn 1 2) ≠ "" ∧
    get_key dC5 1 2 ≠ keys_key dC5 ∧
    (∀ p ∈ initState.zsets (keys_key dC5), p.2 < 1) ∧
    innerCall dC5 true 1 initState 1 2 =
      Except.ok (3, luaCacheFn initState (get_key dC5 1 2) (keys_key dC5)
        (dC5.value_serializer 3) dC5.ttl dC5.limit 1,
        [Eff.readKey (get_key dC5 1 2), Eff.callFn, Eff.luaWrite (get_key dC5 1 2)]) ∧
    (innerCall dC5 true 2 (luaCacheFn initState (get_key dC5 1 2) (keys_key dC5)
        (dC5.value_serializer 3) dC5.ttl dC5.limit 1) 1 2 =
      Except.ok (3, luaCacheFn initState (get_key dC5 1 2) (keys_key dC5)
        (dC5.value_serializer 3) dC5.ttl dC5.limit 1,
        [Eff.readKey (get_key dC5 1 2)]) ∧
      ([Eff.readKey (get_key dC5 1 2), Eff.callFn,
        Eff.luaWrite (get_key dC5 1 2)].count Eff.callFn ≤ 1) ∧
      Eff.callFn ∉ [Eff.readKey (get_key dC5 1 2)]) :=
  ⟨rfl, by decide, by decide, by decide, by simp [initState],
    rfl,
    c5_idempotent_hit dC5 1 2 initState 1 2 3 _ _ rfl (by decide) (by decide) (by decide)
      (by simp [initState]) rfl⟩

/-! Claim C1: the bounded-size invariant of the namespace index. -/

lemma zinsert_perm (e : String × Nat) (l : List (String × Nat)) :
    (zinsert e l).Perm (e :: l) := by
  induction l with
  | nil => exact List.Perm.refl _
  | cons x xs ih =>
    rw [zinsert]
    split
    · exact (ih.cons x).trans (List.Perm.swap e x xs)
    · exact List.Perm.refl _

/-- The state facts preserved by every pass of the Lua script over one
namespace index: the index holds at most L members, its members are distinct,
none of them is the index key itself, and each member has a value present in
the store. -/
def IndexInv (idx : String) (L : Nat) (st : RedisState) : Prop :=
  (st.zsets idx).length ≤ L ∧
  ((st.zsets idx).map (fun p => p.1)).Nodup ∧
  (∀ p ∈ st.zsets idx, p.1 ≠ idx) ∧
  (∀ p ∈ st.zsets idx, st.store p.1 ≠ none)

lemma luaCacheFn_preserves_inv (st : RedisState) (vk idx value : String) (ttl : Int)
    (L : Nat) (time : Nat) (hL : 0 < L) (hvk : vk ≠ idx) (hinv : IndexInv idx L st) :
    IndexInv idx L (luaCacheFn st vk idx value ttl (L : Int) time) := by
  obtain ⟨hlen, hnd, hne, hval⟩ := hinv
  rw [luaCacheFn, if_pos (by exact_mod_cast hL)]
  have hz : (st.setStore vk value).zsets idx = st.zsets idx := rfl
  set old := st.zsets idx with hold
  set old' := old.filter (fun p => decide (p.1 ≠ vk)) with hold'
  have hz1 : zadd ((st.setStore vk value).zsets idx) vk time = zinsert (vk, time) old' := by
    rw [hz, zadd]
  have hperm : (zinsert (vk, time) old').Perm ((vk, time) :: old') := zinsert_perm _ _
  have hmem1 : ∀ p, p ∈ zinsert (vk, time) old' → p = (vk, time) ∨ p ∈ old' := by
    intro p hp
    have := hperm.mem_iff.mp hp
    simpa using this
  have hold'_sub : ∀ p, p ∈ old' → p ∈ old := fun p hp => List.mem_of_mem_filter hp
  have hnd1 : ((zinsert (vk, time) old').map (fun p => p.1)).Nodup := by
    refine ((hperm.map (fun p => p.1)).nodup_iff).mpr ?_
    simp only [List.map_cons, List.nodup_cons]
    constructor
    · intro hmem
      rcases List.mem_map.mp hmem with ⟨p, hp, hp1⟩
      have := List.of_mem_filter hp
      simp only [decide_eq_true_eq] at this
      exact this hp1
    · exact (List.Sublist.map (fun p => p.1) (List.filter_sublist old)).nodup hnd
  have hlen1 : (zinsert (vk, time) old').length = old'.length + 1 := zinsert_length _ _
  have hne1 : ∀ p ∈ zinsert (vk, time) old', p.1 ≠ idx := by
    intro p hp
    rcases hmem1 p hp with h | h
    · rw [h]
      exact hvk
    · exact hne p (hold'_sub p h)
  have hstore1 : ∀ p ∈ zinsert (vk, time) old',
      (st.setStore vk value).store p.1 ≠ none := by
    intro p hp
    rw [setStore_store]
    by_cases hcase : p.1 = vk
    · simp [hcase]
    · rcases hmem1 p hp with h | h
      · rw [h] at hcase
        exact absurd rfl hcase
      · simp only [if_neg hcase]
        exact hval p (hold'_sub p h)
  rw [hz1]
  by_cases hover : 0 < ((zinsert (vk, time) old').length : Int) - (L : Int)
  · rw [if_pos hover]
    set tn := ((((zinsert (vk, time) old').length : Int)) - (L : Int)).toNat with htn
    set stale := ((zinsert (vk, time) old').take tn).map (fun p => p.1) with hstale
    have hstale_sub : ∀ m ∈ stale, ∃ p ∈ zinsert (vk, time) old', p.1 = m := by
      intro m hm
      rcases List.mem_map.mp hm with ⟨p, hp, hp1⟩
      exact ⟨p, List.mem_of_mem_take hp, hp1⟩
    have hidx_stale : idx ∉ stale := by
      intro hmem
      rcases hstale_sub idx hmem with ⟨p, hp, hp1⟩
      exact hne1 p hp hp1
    have hz2 : (delKeys stale ((st.setStore vk value).setZset idx
        (zremMembers ((zinsert (vk, time) old').drop tn) stale))).zsets idx =
        zremMembers ((zinsert (vk, time) old').drop tn) stale := by
      rw [delKeys_zsets, if_neg hidx_stale, setZset_zsets, if_pos rfl]
    refine ⟨?_, ?_, ?_, ?_⟩
    · rw [hz2]
      have h1 : (zremMembers ((zinsert (vk, time) old').drop tn) stale).length ≤
          ((zinsert (vk, time) old').drop tn).length := List.length_filter_le _ _
      have h2 : ((zinsert (vk, time) old').drop tn).length =
          (zinsert (vk, time) old').length - tn := List.length_drop _ _
      have h3 : old'.length ≤ old.length := List.length_filter_le _ _
      omega
    · rw [hz2]
      have hsub2 : (zremMembers ((zinsert (vk, time) old').drop tn) stale).Sublist
          (zinsert (vk, time) old') :=
        (List.filter_sublist _).trans (List.drop_sublist _ _)
      exact (List.Sublist.map (fun p => p.1) hsub2).nodup hnd1
    · rw [hz2]
      intro p hp
      exact hne1 p (List.mem_of_mem_drop (List.mem_of_mem_filter hp))
    · rw [hz2]
      intro p hp
      have hnotstale : p.1 ∉ stale := by
        have := List.of_mem_filter hp
        simpa using this
      rw [delKeys_store, if_neg hnotstale, setZset_store]
      exact hstore1 p (List.mem_of_mem_drop (List.mem_of_mem_filter hp))
  · rw [if_neg hover]
    have hz3 : ((st.setStore vk value).setZset idx (zinsert (vk, time) old')).zsets idx =
        zinsert (vk, time) old' := by
      rw [setZset_zsets, if_pos rfl]
    refine ⟨?_, ?_, ?_, ?_⟩
    · rw [hz3]
      omega
    · rw [hz3]
      exact hnd1
    · rw [hz3]
      exact hne1
    · rw [hz3]
      intro p hp
      rw [setZset_store]
      exact hstore1 p hp

lemma runInserts_cons (idx : String) (limit : Int) (op : InsOp) (ops : List InsOp)
    (st : RedisState) :
    runInserts idx limit (op :: ops) st =
      runInserts idx limit ops (luaCacheFn st op.key idx op.value op.ttl limit op.time) := rfl

lemma runInserts_preserves_inv (idx : String) (L : Nat) (ops : List InsOp)
    (st : RedisState) (hL : 0 < L) (hkeys : ∀ op ∈ ops, op.key ≠ idx)
    (hinv : IndexInv idx L st) : IndexInv idx L (runInserts idx (L : Int) ops st) := by
  induction ops generalizing st with
  | nil => exact hinv
  | cons op ops ih =>
    rw [runInserts_cons]
    exact ih _ (fun o ho => hkeys o (by simp [ho]))
      (luaCacheFn_preserves_inv st op.key idx op.value op.ttl L op.time hL
        (hkeys op (by simp)) hinv)

/-- C1: for a namespace with limit L > 0, after any sequence of atomic
set-and-trim insertions from the empty store, the namespace index holds at
most L members and every member still has its value present in the store.
(Each insertion uses a value key distinct from the index key, as the
library derives them.) -/
theorem c1_bounded_index (idx : String) (L : Nat) (ops : List InsOp)
    (hL : 0 < L) (hkeys : ∀ op ∈ ops, op.key ≠ idx) :
    ((runInserts idx (L : Int) ops initState).zsets idx).length ≤ L ∧
    ∀ p ∈ (runInserts idx (L : Int) ops initState).zsets idx,
      (runInserts idx (L : Int) ops initState).store p.1 ≠ none := by
  have hinv0 : IndexInv idx L initState := by
    refine ⟨by simp [initState], by simp [initState], by simp [initState], by simp [initState]⟩
  have := runInserts_preserves_inv idx L ops initState hL hkeys hinv0
  exact ⟨this.1, this.2.2.2⟩

/-- Witness for C1: limit 1, two insertions (the second with a repeated key
pattern would also be fine); the index ends with one member whose value is
present. -/
theorem c1_bounded_index_witness :
    (0 < 1 ∧ ∀ op ∈ [InsOp.mk "rc:n:a" "1" 0 1, InsOp.mk "rc:n:b" "2" 0 2],
      op.key ≠ "rc:n:keys") ∧
    (((runInserts "rc:n:keys" ((1 : Nat) : Int) [InsOp.mk "rc:n:a" "1" 0 1,
        InsOp.mk "rc:n:b" "2" 0 2] initState).zsets "rc:n:keys").length ≤ 1 ∧
      ∀ p ∈ (runInserts "rc:n:keys" ((1 : Nat) : Int) [InsOp.mk "rc:n:a" "1" 0 1,
          InsOp.mk "rc:n:b" "2" 0 2] initState).zsets "rc:n:keys",
        (runInserts "rc:n:keys" ((1 : Nat) : Int) [InsOp.mk "rc:n:a" "1" 0 1,
          InsOp.mk "rc:n:b" "2" 0 2] initState).store p.1 ≠ none) :=
  ⟨⟨by decide, by decide⟩,
    c1_bounded_index "rc:n:keys" 1 [InsOp.mk "rc:n:a" "1" 0 1, InsOp.mk "rc:n:b" "2" 0 2]
      (by decide) (by decide)⟩

/-! Claim C2: oldest-first eviction. -/

/-- Exact description of the state after a run of distinct-key, strictly
increasing-time insertions: the index holds precisely the window of the last
L insertions (key and score, in order), the values of the evicted older
insertions are gone from the store, and the values of the window are
present. -/
def EvictionDesc (idx : String) (L : Nat) (done : List InsOp) (st : RedisState) : Prop :=
  st.zsets idx = (done.drop (done.length - L)).map (fun op => (op.key, op.time)) ∧
  (∀ op ∈ done.take (done.length - L), st.store op.key = none) ∧
  (∀ op ∈ done.drop (done.length - L), st.store op.key = some op.value)

lemma eviction_step (idx : String) (L : Nat) (done : List InsOp) (op : InsOp)
    (st : RedisState) (hL : 0 < L) (hdesc : EvictionDesc idx L done st)
    (hkeys : ∀ o ∈ done ++ [op], o.key ≠ idx)
    (hnd : ((done ++ [op]).map InsOp.key).Nodup)
    (ht : ∀ o ∈ done, o.time < op.time) :
    EvictionDesc idx L (done ++ [op])
      (luaCacheFn st op.key idx op.value op.ttl (L : Int) op.time) := by
  obtain ⟨hz, htake, hdrop⟩ := hdesc
  have hopkey : ∀ o ∈ done, o.key ≠ op.key := by
    intro o ho heq
    have h2 : (done.map InsOp.key ++ [op.key]).Nodup := by
      simpa using hnd
    rcases List.nodup_append.mp h2 with ⟨_, _, hdisj⟩
    exact hdisj (heq ▸ List.mem_map_of_mem InsOp.key ho) (by simp)
  have hdonekeys : (done.map InsOp.key).Nodup :=
    (List.Sublist.map InsOp.key (by simp)).nodup hnd
  set m := done.length - L with hm
  set slice := done.drop m with hslice
  have hslice_sub : ∀ o ∈ slice, o ∈ done := fun o ho => List.mem_of_mem_drop ho
  have hfilter : ((slice.map (fun o => (o.key, o.time))).filter
      (fun p => decide (p.1 ≠ op.key))) = slice.map (fun o => (o.key, o.time)) := by
    apply filter_ne_self
    intro p hp
    rcases List.mem_map.mp hp with ⟨o, ho, rfl⟩
    exact hopkey o (hslice_sub o ho)
  have hins : zadd ((st.setStore op.key op.value).zsets idx) op.key op.time =
      slice.map (fun o => (o.key, o.time)) ++ [(op.key, op.time)] := by
    rw [show (st.setStore op.key op.value).zsets idx = st.zsets idx from rfl, hz, zadd,
      hfilter]
    apply zinsert_of_forall_lt
    intro p hp
    rcases List.mem_map.mp hp with ⟨o, ho, rfl⟩
    exact ht o (hslice_sub o ho)
  rw [luaCacheFn, if_pos (show (0 : Int) < (L : Int) by exact_mod_cast hL), hins]
  by_cases hc : done.length < L
  · -- still under the limit: no eviction
    have hm0 : m = 0 := by omega
    have hslice_done : slice = done := by rw [hslice, hm0, List.drop_zero]
    have hlen1 : (slice.map (fun o => (o.key, o.time)) ++ [(op.key, op.time)]).length =
        done.length + 1 := by simp [hslice_done]
    have hover : ¬(0 : Int) <
        ((slice.map (fun o => (o.key, o.time)) ++ [(op.key, op.time)]).length : Int) -
          (L : Int) := by
      rw [hlen1]
      omega
    rw [if_neg hover]
    have hm1 : (done ++ [op]).length - L = 0 := by simp; omega
    refine ⟨?_, ?_, ?_⟩
    · rw [setZset_zsets, if_pos rfl, hm1, List.drop_zero, List.map_append, hslice_done]
      simp
    · rw [hm1]
      simp
    · rw [hm1, List.drop_zero]
      intro o ho
      rw [setZset_store, setStore_store]
      rcases List.mem_append.mp ho with ho1 | ho2
      · rw [if_neg (hopkey o ho1)]
        have := hdrop o (by rw [hslice_done]; exact ho1)
        exact this
      · have : o = op := by simpa using ho2
        subst this
        rw [if_pos rfl]
  · -- at the limit: the oldest member is popped and its value deleted
    have hdone_len : L ≤ done.length := le_of_not_lt hc
    have hslice_len : slice.length = L := by
      rw [hslice, List.length_drop]
      omega
    have hslice_ne : slice ≠ [] := by
      intro h
      rw [h] at hslice_len
      simp at hslice_len
      omega
    obtain ⟨q, srest, hqs⟩ := List.exists_cons_of_ne_nil hslice_ne
    have hsrest_len : srest.length = L - 1 := by
      have := hslice_len
      rw [hqs] at this
      simp at this
      omega
    have hz1 : slice.map (fun o => (o.key, o.time)) ++ [(op.key, op.time)] =
        (q.key, q.time) :: (srest.map (fun o => (o.key, o.time)) ++ [(op.key, op.time)]) := by
      rw [hqs]
      simp
    have hlen1 : (slice.map (fun o => (o.key, o.time)) ++ [(op.key, op.time)]).length =
        L + 1 := by simp [hslice_len]
    have hover : (0 : Int) <
        ((slice.map (fun o => (o.key, o.time)) ++ [(op.key, op.time)]).length : Int) -
          (L : Int) := by
      rw [hlen1]
      push_cast
      omega
    rw [if_pos hover]
    have htn : (((slice.map (fun o => (o.key, o.time)) ++ [(op.key, op.time)]).length : Int) -
        (L : Int)).toNat = 1 := by
      rw [hlen1]
      omega
    have hq_done : q ∈ done := hslice_sub q (by rw [hqs]; simp)
    have hsrest_done : ∀ o ∈ srest, o ∈ done := by
      intro o ho
      exact hslice_sub o (by rw [hqs]; simp [ho])
    have hqkey_ne : ∀ o ∈ srest, o.key ≠ q.key := by
      intro o ho heq
      have hsub : (q :: srest).Sublist done := by
        rw [← hqs, hslice]
        exact List.drop_sublist m done
      have hnds : ((q :: srest).map InsOp.key).Nodup :=
        (List.Sublist.map InsOp.key hsub).nodup hdonekeys
      simp only [List.map_cons, List.nodup_cons] at hnds
      exact hnds.1 (heq ▸ List.mem_map_of_mem InsOp.key ho)
    have hrem : zremMembers (srest.map (fun o => (o.key, o.time)) ++ [(op.key, op.time)])
        [q.key] =
        srest.map (fun o => (o.key, o.time)) ++ [(op.key, op.time)] := by
      rw [zremMembers]
      apply List.filter_eq_self.mpr
      intro p hp
      simp only [List.mem_singleton, decide_eq_true_eq]
      rcases List.mem_append.mp hp with hp1 | hp2
      · rcases List.mem_map.mp hp1 with ⟨o, ho, rfl⟩
        simpa using hqkey_ne o ho
      · have : p = (op.key, op.time) := by simpa using hp2
        subst this
        simpa using fun h => hopkey q hq_done h.symm
    have htake1 : ((q.key, q.time) ::
        (srest.map (fun o => (o.key, o.time)) ++ [(op.key, op.time)])).take 1 =
        [(q.key, q.time)] := rfl
    have hdrop1 : ((q.key, q.time) ::
        (srest.map (fun o => (o.key, o.time)) ++ [(op.key, op.time)])).drop 1 =
        srest.map (fun o => (o.key, o.time)) ++ [(op.key, op.time)] := rfl
    rw [htn, hz1]
    simp only [htake1, hdrop1, List.map_cons, List.map_nil]
    rw [hrem]
    have hqidx : q.key ≠ idx := hkeys q (by simp [hq_done])
    have hsplit : done.take m ++ q :: srest = done := by
      rw [← hqs, hslice]
      exact List.take_append_drop m done
    have htm : (done.take m).length = m := by
      rw [List.length_take]
      omega
    have hnewlen : (done ++ [op]).length - L = m + 1 := by
      simp
      omega
    have hdrop_new : (done ++ [op]).drop (m + 1) = srest ++ [op] := by
      rw [List.drop_append_of_le_length (by omega)]
      congr 1
      have : done.drop (m + 1) = (done.drop m).drop 1 := by
        rw [List.drop_drop]
      rw [this, ← hslice, hqs]
      rfl
    have htake_new : (done ++ [op]).take (m + 1) = done.take m ++ [q] := by
      rw [List.take_append_of_le_length (by omega)]
      conv_lhs => rw [← hsplit]
      rw [List.take_append_eq_append_take, htm, List.take_of_length_le (by omega)]
      congr 1
      have h1 : m + 1 - m = 1 := by omega
      rw [h1]
      rfl
    refine ⟨?_, ?_, ?_⟩
    · rw [hnewlen, hdrop_new, delKeys_cons, delKeys, List.foldl_nil, delKey_zsets,
        if_neg (Ne.symm hqidx), setZset_zsets, if_pos rfl]
      simp
    · rw [hnewlen, htake_new]
      intro o ho
      rw [delKeys_cons, delKeys, List.foldl_nil, delKey_store]
      rcases List.mem_append.mp ho with ho1 | ho2
      · by_cases hoq : o.key = q.key
        · rw [if_pos hoq]
        · rw [if_neg hoq, setZset_store, setStore_store,
            if_neg (hopkey o (List.mem_of_mem_take ho1))]
          exact htake o ho1
      · have : o = q := by simpa using ho2
        subst this
        rw [if_pos rfl]
    · rw [hnewlen, hdrop_new]
      intro o ho
      rw [delKeys_cons, delKeys, List.foldl_nil, delKey_store]
      rcases List.mem_append.mp ho with ho1 | ho2
      · rw [if_neg (hqkey_ne o ho1), setZset_store, setStore_store,
          if_neg (hopkey o (hsrest_done o ho1))]
        apply hdrop
        rw [hqs]
        simp [ho1]
      · have : o = op := by simpa using ho2
        subst this
        rw [if_neg (fun h => hopkey q hq_done h.symm), setZset_store, setStore_store,
          if_pos rfl]

lemma eviction_run (idx : String) (L : Nat) (hL : 0 < L) :
    ∀ (rest done : List InsOp) (st : RedisState),
      EvictionDesc idx L done st →
      (∀ o ∈ done ++ rest, o.key ≠ idx) →
      ((done ++ rest).map InsOp.key).Nodup →
      ((done ++ rest).map InsOp.time).Pairwise (· < ·) →
      EvictionDesc idx L (done ++ rest) (runInserts idx (L : Int) rest st) := by
  intro rest
  induction rest with
  | nil =>
    intro done st hdesc _ _ _
    simpa using hdesc
  | cons op rest ih =>
    intro done st hdesc hkeys hnd ht
    rw [runInserts_cons]
    have hassoc : (done ++ [op]) ++ rest = done ++ op :: rest := by simp
    have ht2 : List.Pairwise (fun a b => a.time < b.time) (done ++ op :: rest) :=
      List.pairwise_map.mp ht
    have hstep := eviction_step idx L done op st hL hdesc
      (fun o ho => hkeys o (by
        rcases List.mem_append.mp ho with h | h
        · exact List.mem_append.mpr (Or.inl h)
        · simp only [List.mem_singleton] at h
          subst h
          simp))
      ((List.Sublist.map InsOp.key
        ((List.append_sublist_append_left done).mpr
          ((List.nil_sublist rest).cons₂ op))).nodup hnd)
      (by
        intro o ho
        exact (List.pairwise_append.mp ht2).2.2 o ho op (by simp))
    have hres := ih (done ++ [op]) _ hstep
      (by rw [hassoc]; exact hkeys)
      (by rw [hassoc]; exact hnd)
      (by rw [hassoc]; exact ht)
    rw [hassoc] at hres
    exact hres

/-- C2: with limit L > 0 and L + k insertions of pairwise distinct keys at
strictly increasing timestamps, the surviving keys are exactly those of the L
most recent insertions: the final index lists precisely that window in order,
the values of all older insertions are absent from the store, and the values
of the window are present.  (Under strictly increasing timestamps no ties
arise; the window is determined by insertion sequence.) -/
theorem c2_oldest_first_eviction (idx : String) (L : Nat) (ops : List InsOp)
    (hL : 0 < L) (hkeys : ∀ op ∈ ops, op.key ≠ idx)
    (hnd : (ops.map InsOp.key).Nodup)
    (ht : (ops.map InsOp.time).Pairwise (· < ·)) :
    (runInserts idx (L : Int) ops initState).zsets idx =
      (ops.drop (ops.length - L)).map (fun op => (op.key, op.time)) ∧
    (∀ op ∈ ops.take (ops.length - L),
      (runInserts idx (L : Int) ops initState).store op.key = none) ∧
    (∀ op ∈ ops.drop (ops.length - L),
      (runInserts idx (L : Int) ops initState).store op.key = some op.value) := by
  have h0 : EvictionDesc idx L [] initState := by
    refine ⟨by simp [initState], by simp, by simp⟩
  have := eviction_run idx L hL ops [] initState h0 (by simpa using hkeys)
    (by simpa using hnd) (by simpa using ht)
  simpa [EvictionDesc] using this

/-- Witness for C2: the end-to-end scenario of the spec.  With limit 2 and
sequential insertions A (t=1), B (t=2), C (t=3), the final index is exactly
the window B, C and the value of A is absent while B and C are present. -/
theorem c2_oldest_first_eviction_witness :
    (0 < 2 ∧ (∀ op ∈ [InsOp.mk "rc:ns:A" "va" 0 1, InsOp.mk "rc:ns:B" "vb" 0 2,
        InsOp.mk "rc:ns:C" "vc" 0 3], op.key ≠ "rc:ns:keys") ∧
      ([InsOp.mk "rc:ns:A" "va" 0 1, InsOp.mk "rc:ns:B" "vb" 0 2,
        InsOp.mk "rc:ns:C" "vc" 0 3].map InsOp.key).Nodup ∧
      ([InsOp.mk "rc:ns:A" "va" 0 1, InsOp.mk "rc:ns:B" "vb" 0 2,
        InsOp.mk "rc:ns:C" "vc" 0 3].map InsOp.time).Pairwise (· < ·)) ∧
    ((runInserts "rc:ns:keys" ((2 : Nat) : Int) [InsOp.mk "rc:ns:A" "va" 0 1,
        InsOp.mk "rc:ns:B" "vb" 0 2, InsOp.mk "rc:ns:C" "vc" 0 3] initState).zsets
        "rc:ns:keys" =
      ([InsOp.mk "rc:ns:A" "va" 0 1, InsOp.mk "rc:ns:B" "vb" 0 2,
        InsOp.mk "rc:ns:C" "vc" 0 3].drop 1).map (fun op => (op.key, op.time)) ∧
      (∀ op ∈ [InsOp.mk "rc:ns:A" "va" 0 1, InsOp.mk "rc:ns:B" "vb" 0 2,
          InsOp.mk "rc:ns:C" "vc" 0 3].take 1,
        (runInserts "rc:ns:keys" ((2 : Nat) : Int) [InsOp.mk "rc:ns:A" "va" 0 1,
          InsOp.mk "rc:ns:B" "vb" 0 2, InsOp.mk "rc:ns:C" "vc" 0 3] initState).store
          op.key = none) ∧
      (∀ op ∈ [InsOp.mk "rc:ns:A" "va" 0 1, InsOp.mk "rc:ns:B" "vb" 0 2,
          InsOp.mk "rc:ns:C" "vc" 0 3].drop 1,
        (runInserts "rc:ns:keys" ((2 : Nat) : Int) [InsOp.mk "rc:ns:A" "va" 0 1,
          InsOp.mk "rc:ns:B" "vb" 0 2, InsOp.mk "rc:ns:C" "vc" 0 3] initState).store
          op.key = some op.value)) :=
  ⟨⟨by decide, by decide, by decide, by decide⟩,
    c2_oldest_first_eviction "rc:ns:keys" 2 [InsOp.mk "rc:ns:A" "va" 0 1,
      InsOp.mk "rc:ns:B" "vb" 0 2, InsOp.mk "rc:ns:C" "vc" 0 3]
      (by decide) (by decide) (by decide) (by decide)⟩

/-! Claim C10: invalidate_all. -/

lemma nil_mem_tails (s : List Char) : [] ∈ s.tails := by
  induction s with
  | nil => simp [List.tails]
  | cons a t ih => simp [List.tails, ih]

lemma globMatch_star_all (s : List Char) : globMatch ['*'] s = true := by
  show (s.tails.any (fun s2 => globMatch [] s2)) = true
  rw [List.any_eq_true]
  exact ⟨[], nil_mem_tails s, rfl⟩

/-- On a literal (no metacharacters) followed by one trailing star — the only
pattern shape the library builds — glob matching is exactly the literal being
an initial segment of the subject. -/
lemma globMatch_lit_star (lit : List Char) (hmeta : ∀ c ∈ lit, c ≠ '*' ∧ c ≠ '?') :
    ∀ s, globMatch (lit ++ ['*']) s = lit.isPrefixOf s := by
  induction lit with
  | nil =>
    intro s
    simp [globMatch_star_all s, List.isPrefixOf]
  | cons c cs ih =>
    intro s
    have hc := hmeta c (by simp)
    have ih2 := ih (fun x hx => hmeta x (by simp [hx]))
    cases s with
    | nil => simp [globMatch, hc.1, List.isPrefixOf]
    | cons b bs =>
      simp [globMatch, hc.1, hc.2, List.isPrefixOf, ih2 bs]

lemma isPrefixOf_append_self (l t : List Char) : l.isPrefixOf (l ++ t) = true := by
  induction l with
  | nil => simp [List.isPrefixOf]
  | cons a as ih => simp [List.isPrefixOf, ih]

lemma chunks_flatten {α : Type} (n : Nat) (hn : 0 < n) (l : List α) :
    (chunks l n).flatten = l := by
  suffices h : ∀ (N : Nat) (l : List α), l.length = N → (chunks l n).flatten = l from
    h l.length l rfl
  intro N
  induction N using Nat.strong_induction_on with
  | _ N ih =>
    intro l hN
    cases l with
    | nil =>
      cases n with
      | zero => exact absurd hn (by omega)
      | succ k => simp [chunks]
    | cons a t =>
      cases n with
      | zero => exact absurd hn (by omega)
      | succ k =>
        rw [chunks]
        have hlt : ((a :: t).drop (k + 1)).length < N := by
          rw [← hN]
          simp only [List.length_drop, List.length_cons]
          omega
        have := ih _ hlt ((a :: t).drop (k + 1)) rfl
        simp only [List.flatten_cons, this]
        exact List.take_append_drop (k + 1) (a :: t)

lemma chunks_sizes {α : Type} (n : Nat) (l : List α) :
    ∀ c ∈ chunks l n, c.length ≤ n ∧ c ≠ [] := by
  suffices h : ∀ (N : Nat) (l : List α), l.length = N →
      ∀ c ∈ chunks l n, c.length ≤ n ∧ c ≠ [] from h l.length l rfl
  intro N
  induction N using Nat.strong_induction_on with
  | _ N ih =>
    intro l hN
    cases l with
    | nil =>
      cases n with
      | zero => simp [chunks]
      | succ k => simp [chunks]
    | cons a t =>
      cases n with
      | zero => simp [chunks]
      | succ k =>
        rw [chunks]
        intro c hc
        rcases List.mem_cons.mp hc with h1 | h2
        · subst h1
          constructor
          · rw [List.length_take]
            omega
          · simp
        · have hlt : ((a :: t).drop (k + 1)).length < N := by
            rw [← hN]
            simp only [List.length_drop, List.length_cons]
            omega
          exact ih _ hlt ((a :: t).drop (k + 1)) rfl c h2

lemma delKeys_append (xs ys : List String) (st : RedisState) :
    delKeys (xs ++ ys) st = delKeys ys (delKeys xs st) := by
  rw [delKeys, delKeys, delKeys, List.foldl_append]

lemma foldl_delKeys (cs : List (List String)) (st : RedisState) :
    cs.foldl (fun s ks => delKeys ks s) st = delKeys cs.flatten st := by
  induction cs generalizing st with
  | nil => rfl
  | cons c cs ih =>
    rw [List.foldl_cons, List.flatten_cons, delKeys_append, ih]

lemma invalidate_all_eq_delKeys (d : CacheDecorator A K V) (scanned : List String)
    (st : RedisState) : invalidate_all d scanned st = delKeys scanned st := by
  rw [invalidate_all, foldl_delKeys, chunks_flatten 500 (by omega)]

/-- The literal part of the namespace pattern. -/
def ns_lit (d : CacheDecorator A K V) : String := d.pfx ++ ":" ++ d.nspace ++ ":"

lemma scan_pattern_eq (d : CacheDecorator A K V) :
    (scan_pattern d).toList = (ns_lit d).toList ++ ['*'] := by
  have h1 : scan_pattern d = ns_lit d ++ "*" := by
    rw [scan_pattern, ns_lit, String.append_assoc (d.pfx ++ ":" ++ d.nspace) ":" "*"]
    congr 1
  rw [h1]
  show (ns_lit d ++ "*").data = (ns_lit d).data ++ ['*']
  rw [String.data_append]

lemma keys_key_toList (d : CacheDecorator A K V) :
    (keys_key d).toList = (ns_lit d).toList ++ "keys".toList := by
  have h1 : keys_key d = ns_lit d ++ "keys" := by
    rw [keys_key, ns_lit, String.append_assoc (d.pfx ++ ":" ++ d.nspace) ":" "keys"]
    congr 1
  rw [h1]
  show (ns_lit d ++ "keys").data = (ns_lit d).data ++ "keys".data
  rw [String.data_append]

/-- C10 amended: invalidate_all deletes exactly the existing keys whose full
name begins with the literal prefix:namespace: — in particular the namespace
index key itself, so the index is empty afterwards — issuing its DEL commands
in nonempty chunks of at most 500 keys that together cover the scan; every
key whose name does not begin with that literal is untouched.  (Because the
raw key string is what is matched, a key of a different namespace whose
namespace-plus-encoding happens to begin with the literal is also deleted;
see the counterexample.) -/
theorem c10_amended_invalidate_all (d : CacheDecorator A K V) (st : RedisState)
    (scanned : List String) (hscan : ScanFaithful d st scanned)
    (hmeta : ∀ c ∈ (ns_lit d).toList, c ≠ '*' ∧ c ≠ '?') :
    (invalidate_all d scanned st).zsets (keys_key d) = [] ∧
    (∀ k ∈ scanned, (invalidate_all d scanned st).store k = none ∧
      (invalidate_all d scanned st).zsets k = []) ∧
    (∀ k, (ns_lit d).toList.isPrefixOf k.toList = false →
      (invalidate_all d scanned st).store k = st.store k ∧
      (invalidate_all d scanned st).zsets k = st.zsets k) ∧
    (∀ c ∈ chunks scanned 500, c.length ≤ 500 ∧ c ≠ []) ∧
    (chunks scanned 500).flatten = scanned := by
  have hmatch : ∀ k : String, globMatch (scan_pattern d).toList k.toList =
      (ns_lit d).toList.isPrefixOf k.toList := by
    intro k
    rw [scan_pattern_eq]
    exact globMatch_lit_star (ns_lit d).toList hmeta k.toList
  rw [invalidate_all_eq_delKeys]
  refine ⟨?_, ?_, ?_, chunks_sizes 500 scanned, chunks_flatten 500 (by omega) scanned⟩
  · by_cases hmem : keys_key d ∈ scanned
    · rw [delKeys_zsets, if_pos hmem]
    · have := (hscan (keys_key d))
      rw [delKeys_zsets, if_neg hmem]
      by_contra hne
      apply hmem
      apply this.mpr
      constructor
      · rw [hmatch, keys_key_toList]
        exact isPrefixOf_append_self _ _
      · exact Or.inr hne
  · intro k hk
    exact ⟨by rw [delKeys_store, if_pos hk], by rw [delKeys_zsets, if_pos hk]⟩
  · intro k hpre
    have hnot : k ∉ scanned := by
      intro hk
      have := ((hscan k).mp hk).1
      rw [hmatch k, hpre] at this
      cases this
    exact ⟨by rw [delKeys_store, if_neg hnot], by rw [delKeys_zsets, if_neg hnot]⟩

/-- A decorator of namespace a:b. -/
def dAB : CacheDecorator Nat Nat Nat :=
  ⟨"rc", "a:b", fun _ => SerOut.str "y", none, fun v => toString v, fun s => s.length,
    0, 0, false, fun a k => a + k, fun l => l.map (fun _ => 0)⟩

/-- A decorator of namespace a whose key encoding starts with b: — its keys
collide with the a:b scan pattern. -/
def dA : CacheDecorator Nat Nat Nat :=
  ⟨"rc", "a", fun _ => SerOut.str "y", some (fun _ _ => SerOut.str "b:x"),
    fun v => toString v, fun s => s.length, 0, 0, false, fun a k => a + k,
    fun l => l.map (fun _ => 0)⟩

/-- A store holding only the namespace-a entry rc:a:b:x. -/
def stC10 : RedisState :=
  ⟨fun k => if k = "rc:a:b:x" then some "v" else none, fun _ => []⟩

/-- Counterexample to C10 as stated: namespace a is not a colon-delimited
extension of namespace a:b, yet its cached entry rc:a:b:x (encoding b:x) is
matched by the scan pattern rc:a:b:* and deleted by invalidate_all on
namespace a:b. -/
theorem c10_counterexample :
    get_key dA 1 0 = "rc:a:b:x" ∧
    dA.nspace = "a" ∧ dAB.nspace = "a:b" ∧ dA.pfx = dAB.pfx ∧
    dA.nspace ≠ dAB.nspace ∧
    (dAB.nspace ++ ":").toList.isPrefixOf dA.nspace.toList = false ∧
    ScanFaithful dAB stC10 ["rc:a:b:x"] ∧
    stC10.store (get_key dA 1 0) = some "v" ∧
    (invalidate_all dAB ["rc:a:b:x"] stC10).store (get_key dA 1 0) = none := by
  refine ⟨rfl, rfl, rfl, rfl, by decide, by decide, ?_, rfl, ?_⟩
  case refine_2 =>
    rw [invalidate_all_eq_delKeys, delKeys_store, if_pos (by decide)]
  intro k
  constructor
  · intro hk
    simp only [List.mem_singleton] at hk
    subst hk
    refine ⟨by decide, Or.inl (by simp [stC10])⟩
  · rintro ⟨-, hex⟩
    rcases hex with h1 | h2
    · by_cases hx : k = "rc:a:b:x"
      · simp [hx]
      · exact absurd (by simp [stC10, hx] : stC10.store k = none) h1
    · exact absurd (rfl : stC10.zsets k = []) h2

/-- A decorator and store for the amended-C10 witness. -/
def dW10 : CacheDecorator Nat Nat Nat :=
  ⟨"rc", "w", fun _ => SerOut.str "y", none, fun v => toString v, fun s => s.length,
    0, 0, false, fun a k => a + k, fun l => l.map (fun _ => 0)⟩

/-- Store with one value and a one-member index under namespace w, plus one
foreign key. -/
def stW10 : RedisState :=
  ⟨fun k => if k = "rc:w:x" then some "v" else if k = "rc:other:z" then some "u" else none,
    fun k => if k = "rc:w:keys" then [("rc:w:x", 1)] else []⟩

/-- Witness for the amended C10 at a concrete input. -/
theorem c10_amended_invalidate_all_witness :
    ScanFaithful dW10 stW10 ["rc:w:x", "rc:w:keys"] ∧
    (∀ c ∈ (ns_lit dW10).toList, c ≠ '*' ∧ c ≠ '?') ∧
    ((invalidate_all dW10 ["rc:w:x", "rc:w:keys"] stW10).zsets (keys_key dW10) = [] ∧
      (∀ k ∈ ["rc:w:x", "rc:w:keys"],
        (invalidate_all dW10 ["rc:w:x", "rc:w:keys"] stW10).store k = none ∧
        (invalidate_all dW10 ["rc:w:x", "rc:w:keys"] stW10).zsets k = []) ∧
      (∀ k, (ns_lit dW10).toList.isPrefixOf k.toList = false →
        (invalidate_all dW10 ["rc:w:x", "rc:w:keys"] stW10).store k = stW10.store k ∧
        (invalidate_all dW10 ["rc:w:x", "rc:w:keys"] stW10).zsets k = stW10.zsets k) ∧
      (∀ c ∈ chunks ["rc:w:x", "rc:w:keys"] 500, c.length ≤ 500 ∧ c ≠ []) ∧
      (chunks ["rc:w:x", "rc:w:keys"] 500).flatten = ["rc:w:x", "rc:w:keys"]) ∧
    (invalidate_all dW10 ["rc:w:x", "rc:w:keys"] stW10).store "rc:other:z" = some "u" := by
  have hscan : ScanFaithful dW10 stW10 ["rc:w:x", "rc:w:keys"] := by
    intro k
    constructor
    · intro hk
      rcases List.mem_cons.mp hk with h1 | h2
      · subst h1
        exact ⟨by decide, Or.inl (by simp [stW10])⟩
      · simp only [List.mem_singleton] at h2
        subst h2
        exact ⟨by decide, Or.inr (by simp [stW10])⟩
    · rintro ⟨hm, hex⟩
      rcases hex with h1 | h2
      · by_cases hx : k = "rc:w:x"
        · simp [hx]
        · by_cases hz : k = "rc:other:z"
          · subst hz
            exact absurd hm (by decide)
          · exact absurd (by simp [stW10, hx, hz] : stW10.store k = none) h1
      · by_cases hk2 : k = "rc:w:keys"
        · simp [hk2]
        · exact absurd (by simp [stW10, hk2] : stW10.zsets k = []) h2
  refine ⟨hscan, by decide,
    c10_amended_invalidate_all dW10 stW10 ["rc:w:x", "rc:w:keys"] hscan (by decide), ?_⟩
  rw [invalidate_all_eq_delKeys, delKeys_store]
  simp [stW10]

/-! Claims C3 and C4: the batch resolver.  General list lemmas first. -/

lemma flatMap_congr {α β : Type} (l : List α) (f g : α → List β)
    (h : ∀ x ∈ l, f x = g x) : l.flatMap f = l.flatMap g := by
  induction l with
  | nil => rfl
  | cons a t ih =>
    simp only [List.flatMap_cons]
    rw [h a (by simp), ih (fun x hx => h x (by simp [hx]))]

lemma flatMap_sublist {α β : Type} (l : List α) (f g : α → List β)
    (h : ∀ x ∈ l, (f x).Sublist (g x)) : (l.flatMap f).Sublist (l.flatMap g) := by
  induction l with
  | nil => simp
  | cons a t ih =>
    simp only [List.flatMap_cons]
    exact (h a (by simp)).append (ih (fun x hx => h x (by simp [hx])))

lemma zip_fst_sublist {α β : Type} : ∀ (A : List α) (B : List β),
    ((A.zip B).map Prod.fst).Sublist A
  | [], _ => by simp
  | _ :: _, [] => by simp
  | a :: A, b :: B => by
    simp only [List.zip_cons_cons, List.map_cons]
    exact (zip_fst_sublist A B).cons₂ a

lemma filterMap_dite_eq_filter {α : Type} (p : α → Prop) [DecidablePred p] (l : List α) :
    l.filterMap (fun a => if p a then some a else none) = l.filter (fun a => decide (p a)) := by
  induction l with
  | nil => rfl
  | cons a t ih => by_cases h : p a <;> simp [List.filterMap_cons, h, ih]

lemma mem_firstOccur (x : Nat) (l : List Nat) : x ∈ firstOccur l ↔ x ∈ l := by
  suffices h : ∀ (N : Nat) (l : List Nat), l.length = N → (x ∈ firstOccur l ↔ x ∈ l) from
    h l.length l rfl
  intro N
  induction N using Nat.strong_induction_on with
  | _ N ih =>
    intro l hN
    cases l with
    | nil => rw [firstOccur]
    | cons a t =>
      rw [firstOccur]
      have hlt : (t.filter (fun y => decide (y ≠ a))).length < N := by
        rw [← hN]
        simp only [List.length_cons]
        exact Nat.lt_succ_of_le (List.length_filter_le _ _)
      have hiff := ih _ hlt (t.filter (fun y => decide (y ≠ a))) rfl
      by_cases hxa : x = a
      · simp [hxa]
      · rw [List.mem_cons, List.mem_cons, hiff, List.mem_filter]
        simp [hxa]

/-- The defaultdict grouping is a permutation of the grouped list: walking the
function identities in first-occurrence order and concatenating each
identity's group re-lists every element exactly once. -/
lemma firstOccur_groups_perm {β : Type} (key : β → Nat) (l : List β) :
    ((firstOccur (l.map key)).flatMap
      (fun v => l.filter (fun b => decide (key b = v)))).Perm l := by
  suffices h : ∀ (N : Nat) (l : List β), l.length = N →
      ((firstOccur (l.map key)).flatMap
        (fun v => l.filter (fun b => decide (key b = v)))).Perm l from h l.length l rfl
  intro N
  induction N using Nat.strong_induction_on with
  | _ N ih =>
    intro l hN
    cases l with
    | nil => simp [firstOccur]
    | cons a t =>
      rw [List.map_cons, firstOccur]
      have hfm : (t.map key).filter (fun y => decide (y ≠ key a)) =
          (t.filter (fun b => decide (key b ≠ key a))).map key := by
        rw [List.filter_map]
        rfl
      rw [hfm, List.flatMap_cons]
      have hhead : (a :: t).filter (fun b => decide (key b = key a)) =
          a :: t.filter (fun b => decide (key b = key a)) := by
        simp
      have htail : (firstOccur ((t.filter (fun b => decide (key b ≠ key a))).map key)).flatMap
            (fun v => (a :: t).filter (fun b => decide (key b = v))) =
          (firstOccur ((t.filter (fun b => decide (key b ≠ key a))).map key)).flatMap
            (fun v => (t.filter (fun b => decide (key b ≠ key a))).filter
              (fun b => decide (key b = v))) := by
        apply flatMap_congr
        intro v hv
        have hv2 : v ∈ (t.filter (fun b => decide (key b ≠ key a))).map key :=
          (mem_firstOccur v _).mp hv
        rcases List.mem_map.mp hv2 with ⟨b, hb, rfl⟩
        have hbne : key b ≠ key a := by
          have := List.of_mem_filter hb
          simpa using this
        have hne2 : ¬(key a = key b) := fun h => hbne h.symm
        have h1 : (a :: t).filter (fun x => decide (key x = key b)) =
            t.filter (fun x => decide (key x = key b)) := by
          rw [List.filter_cons]
          simp [hne2]
        rw [h1, List.filter_filter]
        apply List.filter_congr
        intro x hx
        by_cases hxb : key x = key b
        · simp [hxb, hbne]
        · simp [hxb]
      rw [hhead, htail]
      have hlt : (t.filter (fun b => decide (key b ≠ key a))).length < N := by
        rw [← hN]
        simp only [List.length_cons]
        exact Nat.lt_succ_of_le (List.length_filter_le _ _)
      have hperm := ih _ hlt (t.filter (fun b => decide (key b ≠ key a))) rfl
      have hstep1 : (a :: t.filter (fun b => decide (key b = key a)) ++
          (firstOccur ((t.filter (fun b => decide (key b ≠ key a))).map key)).flatMap
            (fun v => (t.filter (fun b => decide (key b ≠ key a))).filter
              (fun b => decide (key b = v)))).Perm
          (a :: (t.filter (fun b => decide (key b = key a)) ++
            t.filter (fun b => decide (key b ≠ key a)))) := by
        rw [List.cons_append]
        exact ((List.Perm.refl _).append hperm).cons a
      refine hstep1.trans (List.Perm.cons a ?_)
      have hfinal := List.filter_append_perm (fun b => decide (key b = key a)) t
      have hcg : t.filter (fun b => !decide (key b = key a)) =
          t.filter (fun b => decide (key b ≠ key a)) := by
        apply List.filter_congr
        intro x hx
        simp [decide_not]
      rw [hcg] at hfinal
      exact hfinal

/-- The cache hits of one mget batch, recorded at their request indices. -/
def hits_of (fns : Nat → CacheDecorator A K V) (deser : String → V) (st : RedisState)
    (calls : List (MCall A K)) : List (Nat × V) :=
  calls.enum.filterMap (fun p => (lookup fns st p.2).map (fun s => (p.1, deser s)))

/-- The cache misses of one mget batch, with their request indices. -/
def misses_of (fns : Nat → CacheDecorator A K V) (st : RedisState)
    (calls : List (MCall A K)) : List (Nat × MCall A K) :=
  calls.enum.filter (fun p => decide (lookup fns st p.2 = none))

/-- The miss group of one function identity. -/
def group_of (fns : Nat → CacheDecorator A K V) (st : RedisState)
    (calls : List (MCall A K)) (fid : Nat) : List (Nat × MCall A K) :=
  (misses_of fns st calls).filter (fun m => decide (m.2.fn = fid))

/-- The recomputed miss results, one group at a time in first-miss order. -/
def miss_results_of (fns : Nat → CacheDecorator A K V) (aT : A → Bool)
    (st : RedisState) (calls : List (MCall A K)) : List (Nat × V) :=
  (firstOccur ((misses_of fns st calls).map (fun m => m.2.fn))).flatMap (fun fid =>
    ((group_of fns st calls fid).map (fun m => m.1)).zip
      (get_batch_call_result aT fns fid ((group_of fns st calls fid).map (fun m => m.2))))

lemma mget_assembled_eq (fns : Nat → CacheDecorator A K V) (aT : A → Bool)
    (deser : String → V) (st : RedisState) (calls : List (MCall A K)) :
    mget_assembled fns aT deser st calls =
      hits_of fns deser st calls ++ miss_results_of fns aT st calls := by
  have hzip : ∀ l : List (MCall A K),
      l.zip (l.map (fun c => lookup fns st c)) = l.map (fun c => (c, lookup fns st c)) := by
    intro l
    induction l with
    | nil => rfl
    | cons a t ih => simp [ih]
  have hk : (calls.map (call_key fns)).map st.store = calls.map (fun c => lookup fns st c) := by
    rw [List.map_map]
    rfl
  have henum : (calls.map (fun c => (c, lookup fns st c))).enum =
      calls.enum.map (fun p => (p.1, (p.2, lookup fns st p.2))) := by
    rw [List.enum_map]
    apply List.map_congr_left
    intro p hp
    rfl
  rw [mget_assembled]
  simp only [hk, hzip, henum, List.filterMap_map]
  have hhits : calls.enum.filterMap
      ((fun p : Nat × (MCall A K × Option String) => (p.2.2).map (fun s => (p.1, deser s))) ∘
        (fun p : Nat × MCall A K => (p.1, (p.2, lookup fns st p.2)))) =
      hits_of fns deser st calls := by
    rw [hits_of]
    rfl
  have hmisses : calls.enum.filterMap
      ((fun p : Nat × (MCall A K × Option String) =>
          if p.2.2 = none then some (p.1, p.2.1) else none) ∘
        (fun p : Nat × MCall A K => (p.1, (p.2, lookup fns st p.2)))) =
      misses_of fns st calls := by
    rw [misses_of, ← filterMap_dite_eq_filter (fun p : Nat × MCall A K => lookup fns st p.2 = none)]
    apply List.filterMap_congr
    intro p hp
    rfl
  rw [hhits, hmisses]
  rfl

lemma group_of_eq_spec (fns : Nat → CacheDecorator A K V) (st : RedisState)
    (calls : List (MCall A K)) (fid : Nat) :
    group_of fns st calls fid = spec_miss_group fns st calls fid := by
  rw [group_of, misses_of, spec_miss_group, List.filter_filter]

lemma enum_fst_nodup' (l : List (MCall A K)) :
    (l.enum.map (fun m : Nat × MCall A K => m.1)).Nodup := by
  rw [show (fun m : Nat × MCall A K => m.1) = Prod.fst from rfl, List.enum_map_fst]
  exact List.nodup_range _

lemma group_mem_facts (fns : Nat → CacheDecorator A K V) (st : RedisState)
    (calls : List (MCall A K)) (fid : Nat) (p : Nat × MCall A K)
    (hp : p ∈ group_of fns st calls fid) :
    lookup fns st p.2 = none ∧ p.2.fn = fid := by
  rw [group_of] at hp
  have h1 := List.of_mem_filter hp
  have h2 := List.of_mem_filter (List.mem_of_mem_filter hp : p ∈ misses_of fns st calls)
  simp only [decide_eq_true_eq] at h1 h2
  exact ⟨h2, h1⟩

lemma group_fst_nodup (fns : Nat → CacheDecorator A K V) (st : RedisState)
    (calls : List (MCall A K)) (fid : Nat) :
    ((group_of fns st calls fid).map (fun m => m.1)).Nodup := by
  have hsub : (group_of fns st calls fid).Sublist calls.enum :=
    (List.filter_sublist _).trans (List.filter_sublist _)
  exact (List.Sublist.map (fun m : Nat × MCall A K => m.1) hsub).nodup (enum_fst_nodup' calls)

lemma group_zip_eq [Inhabited V] (fns : Nat → CacheDecorator A K V) (aT : A → Bool)
    (deser : String → V) (st : RedisState) (calls : List (MCall A K)) (fid : Nat)
    (hB : (fns fid).support_batch_call = true →
      ∀ l, ((fns fid).original_batch_fn l).length = l.length) :
    ((group_of fns st calls fid).map (fun m => m.1)).zip
      (get_batch_call_result aT fns fid ((group_of fns st calls fid).map (fun m => m.2))) =
    (group_of fns st calls fid).map
      (fun p => (p.1, spec_result_at fns aT deser st calls p)) := by
  cases hsup : (fns fid).support_batch_call with
  | false =>
    rw [get_batch_call_result, if_neg (by simp [hsup]), List.map_map, List.zip_map']
    apply List.map_congr_left
    intro p hp
    obtain ⟨h1, h2⟩ := group_mem_facts fns st calls fid p hp
    simp [spec_result_at, h1, h2, hsup]
  | true =>
    rw [get_batch_call_result, if_pos (by simp [hsup])]
    have hveclen : ((fns fid).original_batch_fn
        (((group_of fns st calls fid).map (fun m => m.2)).map (args_or_kwargs aT))).length =
        (group_of fns st calls fid).length := by
      rw [hB hsup]
      simp
    apply List.ext_getElem?
    intro n
    by_cases hn : n < (group_of fns st calls fid).length
    · have hfst : n < ((group_of fns st calls fid).map (fun m => m.1)).length := by
        simpa using hn
      have hv : n < ((fns fid).original_batch_fn
          (((group_of fns st calls fid).map (fun m => m.2)).map (args_or_kwargs aT))).length := by
        rw [hveclen]
        exact hn
      have hL : (((group_of fns st calls fid).map (fun m => m.1)).zip
          ((fns fid).original_batch_fn
            (((group_of fns st calls fid).map (fun m => m.2)).map (args_or_kwargs aT))))[n]? =
          some (((group_of fns st calls fid).map (fun m => m.1))[n],
            ((fns fid).original_batch_fn
              (((group_of fns st calls fid).map (fun m => m.2)).map (args_or_kwargs aT)))[n]) :=
        List.getElem?_zip_eq_some.mpr
          ⟨List.getElem?_eq_getElem hfst, List.getElem?_eq_getElem hv⟩
      rw [hL, List.getElem?_map, List.getElem?_eq_getElem hn, Option.map_some']
      congr 1
      obtain ⟨h1, h2⟩ := group_mem_facts fns st calls fid ((group_of fns st calls fid)[n])
        (List.getElem_mem hn)
      have hfsteq : ((group_of fns st calls fid).map (fun m => m.1))[n] =
          ((group_of fns st calls fid)[n]).1 := List.getElem_map _
      rw [spec_result_at, h1]
      simp only [h2, hsup, eq_self_iff_true, if_true]
      rw [hfsteq]
      congr 1
      rw [← group_of_eq_spec]
      have hidx : List.indexOf ((group_of fns st calls fid)[n]).1
          ((group_of fns st calls fid).map (fun q => q.1)) = n := by
        have := List.indexOf_getElem (group_fst_nodup fns st calls fid) n hfst
        rw [hfsteq] at this
        exact this
      rw [hidx, List.getD_eq_getElem?_getD]
      have hvec2 : (group_of fns st calls fid).map (fun q => args_or_kwargs aT q.2) =
          ((group_of fns st calls fid).map (fun m => m.2)).map (args_or_kwargs aT) := by
        rw [List.map_map]
        rfl
      rw [hvec2, List.getElem?_eq_getElem hv]
      rfl
    · rw [List.getElem?_eq_none, List.getElem?_eq_none]
      · simpa using hn
      · rw [List.length_zip, hveclen]
        simp only [List.length_map]
        omega

lemma hits_of_eq [Inhabited V] (fns : Nat → CacheDecorator A K V) (aT : A → Bool)
    (deser : String → V) (st : RedisState) (calls : List (MCall A K)) :
    hits_of fns deser st calls =
      (calls.enum.filter (fun p => !decide (lookup fns st p.2 = none))).map
        (fun p => (p.1, spec_result_at fns aT deser st calls p)) := by
  rw [hits_of]
  suffices h : ∀ l : List (Nat × MCall A K),
      l.filterMap (fun p => (lookup fns st p.2).map (fun s => (p.1, deser s))) =
      (l.filter (fun p => !decide (lookup fns st p.2 = none))).map
        (fun p => (p.1, spec_result_at fns aT deser st calls p)) from h calls.enum
  intro l
  induction l with
  | nil => rfl
  | cons p t ih =>
    cases hl : lookup fns st p.2 with
    | none => simp [List.filterMap_cons, List.filter_cons, hl, ih]
    | some s =>
      simp only [List.filterMap_cons, List.filter_cons, hl, Option.map_some',
        decide_eq_true_eq]
      rw [ih]
      simp [spec_result_at, hl]

lemma mget_assembled_perm [Inhabited V] (fns : Nat → CacheDecorator A K V) (aT : A → Bool)
    (deser : String → V) (st : RedisState) (calls : List (MCall A K))
    (hB : ∀ fid l, (fns fid).support_batch_call = true →
      ((fns fid).original_batch_fn l).length = l.length) :
    (mget_assembled fns aT deser st calls).Perm
      (calls.enum.map (fun p => (p.1, spec_result_at fns aT deser st calls p))) := by
  rw [mget_assembled_eq, hits_of_eq fns aT deser st calls]
  have hmr : miss_results_of fns aT st calls =
      ((firstOccur ((misses_of fns st calls).map (fun m => m.2.fn))).flatMap
        (fun fid => group_of fns st calls fid)).map
        (fun p => (p.1, spec_result_at fns aT deser st calls p)) := by
    rw [miss_results_of, List.map_flatMap]
    apply flatMap_congr
    intro fid _
    exact group_zip_eq fns aT deser st calls fid (fun hsup l => hB fid l hsup)
  rw [hmr]
  have hperm : ((firstOccur ((misses_of fns st calls).map (fun m => m.2.fn))).flatMap
      (fun fid => group_of fns st calls fid)).Perm (misses_of fns st calls) := by
    have := firstOccur_groups_perm (fun m : Nat × MCall A K => m.2.fn)
      (misses_of fns st calls)
    simpa [group_of] using this
  have hstep : ((calls.enum.filter (fun p => !decide (lookup fns st p.2 = none))).map
        (fun p => (p.1, spec_result_at fns aT deser st calls p)) ++
      ((firstOccur ((misses_of fns st calls).map (fun m => m.2.fn))).flatMap
        (fun fid => group_of fns st calls fid)).map
        (fun p => (p.1, spec_result_at fns aT deser st calls p))).Perm
      ((calls.enum.filter (fun p => !decide (lookup fns st p.2 = none))).map
        (fun p => (p.1, spec_result_at fns aT deser st calls p)) ++
      (misses_of fns st calls).map
        (fun p => (p.1, spec_result_at fns aT deser st calls p))) :=
    (List.Perm.refl _).append
      (hperm.map (fun p => (p.1, spec_result_at fns aT deser st calls p)))
  refine hstep.trans ?_
  have hfinal := (List.filter_append_perm
    (fun p : Nat × MCall A K => !decide (lookup fns st p.2 = none)) calls.enum).map
    (fun p => (p.1, spec_result_at fns aT deser st calls p))
  rw [List.map_append] at hfinal
  have hnn : calls.enum.filter
      (fun x => !(!decide (lookup fns st x.2 = none))) = misses_of fns st calls := by
    rw [misses_of]
    apply List.filter_congr
    intro x _
    simp
  rw [hnn] at hfinal
  exact hfinal

/-- C3: order preservation in batch resolve.  For every batch of pending
calls, with any mix of hits and misses and with each batch-capable
recomputation returning one result per input, mget returns exactly the
spec-mandated sequence: length equal to the batch, and the i-th element is
the deserialized cached value on a hit and the freshly computed value for
call i on a miss (positionally aligned within its function's miss group). -/
theorem c3_mget_order_preservation [Inhabited V] (fns : Nat → CacheDecorator A K V)
    (aT : A → Bool) (deser : String → V) (st : RedisState) (calls : List (MCall A K))
    (hB : ∀ fid l, (fns fid).support_batch_call = true →
      ((fns fid).original_batch_fn l).length = l.length) :
    mget_results fns aT deser st calls = spec_expected fns aT deser st calls ∧
    (mget_results fns aT deser st calls).length = calls.length := by
  have hperm0 := mget_assembled_perm fns aT deser st calls hB
  have hms := List.mergeSort_perm (mget_assembled fns aT deser st calls)
    (fun p q => decide (p.1 ≤ q.1))
  have hperm := hms.trans hperm0
  have htrans : ∀ a b c : Nat × V, decide (a.1 ≤ b.1) = true →
      decide (b.1 ≤ c.1) = true → decide (a.1 ≤ c.1) = true := by
    intro a b c hab hbc
    simp only [decide_eq_true_eq] at hab hbc ⊢
    omega
  have htotal : ∀ a b : Nat × V, (decide (a.1 ≤ b.1) || decide (b.1 ≤ a.1)) = true := by
    intro a b
    rcases Nat.le_total a.1 b.1 with h | h <;> simp [h]
  have hsorted := List.sorted_mergeSort htrans htotal
    (mget_assembled fns aT deser st calls)
  have htgt_fst : (calls.enum.map
      (fun p => (p.1, spec_result_at fns aT deser st calls p))).map Prod.fst =
      List.range calls.length := by
    rw [List.map_map]
    exact List.enum_map_fst calls
  have htarget_sorted : List.Pairwise (fun a b : Nat × V => a.1 < b.1)
      (calls.enum.map (fun p => (p.1, spec_result_at fns aT deser st calls p))) := by
    have h0 := List.pairwise_lt_range calls.length
    rw [← htgt_fst] at h0
    exact List.pairwise_map.mp h0
  have hms_fst_nodup : ((mget_assembled fns aT deser st calls).mergeSort
      (fun p q => decide (p.1 ≤ q.1)) |>.map Prod.fst).Nodup := by
    refine ((hperm.map Prod.fst).nodup_iff).mpr ?_
    rw [htgt_fst]
    exact List.nodup_range _
  have hms_sorted_strict : List.Pairwise (fun a b : Nat × V => a.1 < b.1)
      ((mget_assembled fns aT deser st calls).mergeSort
        (fun p q => decide (p.1 ≤ q.1))) := by
    have h2 : List.Pairwise (fun a b : Nat × V => a.1 ≠ b.1)
        ((mget_assembled fns aT deser st calls).mergeSort
          (fun p q => decide (p.1 ≤ q.1))) := List.pairwise_map.mp hms_fst_nodup
    exact (hsorted.and h2).imp (fun hab =>
      lt_of_le_of_ne (of_decide_eq_true hab.1) hab.2)
  haveI : IsAntisymm (Nat × V) (fun a b => a.1 < b.1) :=
    ⟨fun a b h1 h2 => absurd (lt_trans h1 h2) (lt_irrefl _)⟩
  have heq : (mget_assembled fns aT deser st calls).mergeSort
      (fun p q => decide (p.1 ≤ q.1)) =
      calls.enum.map (fun p => (p.1, spec_result_at fns aT deser st calls p)) :=
    List.eq_of_perm_of_sorted hperm hms_sorted_strict htarget_sorted
  constructor
  · rw [mget_results, heq, List.map_map, spec_expected]
    rfl
  · rw [mget_results, heq]
    simp

/-- A scalar cached function used by the C3 witness. -/
def dM1 : CacheDecorator Nat Nat Nat :=
  ⟨"rc", "m", fun _ => SerOut.str "y", some (fun a _ => SerOut.str ("k" ++ toString a)),
    fun v => toString v, fun s => s.length, 0, 0, false, fun a k => a * 10 + k,
    fun l => l.map (fun _ => 0)⟩

/-- A batch-capable cached function used by the C3 witness. -/
def dM2 : CacheDecorator Nat Nat Nat :=
  ⟨"rc", "n", fun _ => SerOut.str "y", some (fun a _ => SerOut.str ("k" ++ toString a)),
    fun v => toString v, fun s => s.length, 0, 0, true, fun a k => a + k,
    fun l => l.map (fun _ => 99)⟩

/-- The function table for the C3 witness. -/
def fnsW : Nat → CacheDecorator Nat Nat Nat := fun i => if i = 1 then dM2 else dM1

/-- A store holding the cached value of the first witness call only. -/
def stM : RedisState :=
  ⟨fun k => if k = "rc:m:k5" then some "vv" else none, fun _ => []⟩

/-- The C3 witness batch: a hit for the scalar function, a miss for the
batch-capable function, and a second (miss) call to the scalar function. -/
def callsW : List (MCall Nat Nat) := [⟨0, 5, 0⟩, ⟨1, 7, 0⟩, ⟨0, 8, 0⟩]

/-- Witness for C3 at a concrete input: the batch resolves to the
deserialized hit followed by the two recomputed values, in request order. -/
theorem c3_mget_order_preservation_witness :
    (∀ fid l, (fnsW fid).support_batch_call = true →
      ((fnsW fid).original_batch_fn l).length = l.length) ∧
    (mget_results fnsW (fun _ => true) (fun s => s.length) stM callsW =
        spec_expected fnsW (fun _ => true) (fun s => s.length) stM callsW ∧
      (mget_results fnsW (fun _ => true) (fun s => s.length) stM callsW).length =
        callsW.length) ∧
    mget_results fnsW (fun _ => true) (fun s => s.length) stM callsW = [2, 99, 80] := by
  have hB : ∀ fid l, (fnsW fid).support_batch_call = true →
      ((fnsW fid).original_batch_fn l).length = l.length := by
    intro fid l h
    by_cases hf : fid = 1
    · subst hf
      simp [fnsW, dM2]
    · exfalso
      revert h
      simp [fnsW, hf, dM1]
  have hmain := c3_mget_order_preservation fnsW (fun _ => true) (fun s => s.length)
    stM callsW hB
  refine ⟨hB, hmain, hmain.1.trans ?_⟩
  decide

lemma groups_perm (fns : Nat → CacheDecorator A K V) (st : RedisState)
    (calls : List (MCall A K)) :
    ((firstOccur ((misses_of fns st calls).map (fun m => m.2.fn))).flatMap
      (fun fid => group_of fns st calls fid)).Perm (misses_of fns st calls) := by
  have := firstOccur_groups_perm (fun m : Nat × MCall A K => m.2.fn)
    (misses_of fns st calls)
  simpa [group_of] using this

lemma hits_of_fst (fns : Nat → CacheDecorator A K V) (deser : String → V)
    (st : RedisState) (calls : List (MCall A K)) :
    (hits_of fns deser st calls).map Prod.fst =
      (calls.enum.filter (fun p => !decide (lookup fns st p.2 = none))).map Prod.fst := by
  rw [hits_of]
  suffices h : ∀ l : List (Nat × MCall A K),
      (l.filterMap (fun p => (lookup fns st p.2).map (fun s => (p.1, deser s)))).map
        Prod.fst =
      (l.filter (fun p => !decide (lookup fns st p.2 = none))).map Prod.fst from
    h calls.enum
  intro l
  induction l with
  | nil => rfl
  | cons p t ih =>
    cases hl : lookup fns st p.2 with
    | none => simp [List.filterMap_cons, List.filter_cons, hl, ih]
    | some s => simp [List.filterMap_cons, List.filter_cons, hl, ih]

lemma enum_fst_nodup (l : List (MCall A K)) : (l.enum.map Prod.fst).Nodup := by
  rw [List.enum_map_fst]
  exact List.nodup_range _

/-- C4 amended: every request index is populated at most once in the
assembled results (so no output slot is ever produced twice), and every
populated index is a valid request index; an index left unpopulated (for
example by a batch recomputation returning fewer results than its miss
group) is silently omitted from the output rather than raising an error —
see the counterexample for the silent truncation. -/
theorem c4_amended_slots_at_most_once (fns : Nat → CacheDecorator A K V)
    (aT : A → Bool) (deser : String → V) (st : RedisState) (calls : List (MCall A K)) :
    ((mget_assembled fns aT deser st calls).map Prod.fst).Nodup ∧
    ∀ p ∈ mget_assembled fns aT deser st calls, p.1 < calls.length := by
  rw [mget_assembled_eq, List.map_append]
  have hhfst := hits_of_fst fns deser st calls
  have hhits_nodup : ((hits_of fns deser st calls).map Prod.fst).Nodup := by
    rw [hhfst]
    exact (List.Sublist.map Prod.fst (List.filter_sublist _)).nodup (enum_fst_nodup calls)
  have hmfst_sub : ((miss_results_of fns aT st calls).map Prod.fst).Sublist
      (((firstOccur ((misses_of fns st calls).map (fun m => m.2.fn))).flatMap
        (fun fid => group_of fns st calls fid)).map Prod.fst) := by
    rw [miss_results_of, List.map_flatMap, List.map_flatMap]
    apply flatMap_sublist
    intro fid _
    have h1 := zip_fst_sublist ((group_of fns st calls fid).map (fun m => m.1))
      (get_batch_call_result aT fns fid ((group_of fns st calls fid).map (fun m => m.2)))
    have h2 : (group_of fns st calls fid).map (fun m : Nat × MCall A K => m.1) =
        (group_of fns st calls fid).map Prod.fst := rfl
    rw [h2] at h1
    exact h1
  have hgroups_nodup : (((firstOccur ((misses_of fns st calls).map (fun m => m.2.fn))).flatMap
      (fun fid => group_of fns st calls fid)).map Prod.fst).Nodup := by
    refine (((groups_perm fns st calls).map Prod.fst).nodup_iff).mpr ?_
    exact (List.Sublist.map Prod.fst (List.filter_sublist _)).nodup (enum_fst_nodup calls)
  have hmiss_nodup : ((miss_results_of fns aT st calls).map Prod.fst).Nodup :=
    hmfst_sub.nodup hgroups_nodup
  have hdisj : ∀ a, a ∈ (hits_of fns deser st calls).map Prod.fst →
      a ∈ (miss_results_of fns aT st calls).map Prod.fst → False := by
    intro a ha1 ha2
    rw [hhfst] at ha1
    rcases List.mem_map.mp ha1 with ⟨p, hp, hpa⟩
    have ha2' : a ∈ (misses_of fns st calls).map Prod.fst :=
      (((groups_perm fns st calls).map Prod.fst).mem_iff).mp (hmfst_sub.subset ha2)
    rcases List.mem_map.mp ha2' with ⟨q, hq, hqa⟩
    have hpq : p = q := by
      apply List.inj_on_of_nodup_map (enum_fst_nodup calls)
        (List.mem_of_mem_filter hp) (List.mem_of_mem_filter hq)
      rw [hpa, hqa]
    have hbp := List.of_mem_filter hp
    have hbq := List.of_mem_filter hq
    rw [hpq] at hbp
    rw [misses_of] at hq
    simp only [Bool.not_eq_true'] at hbp
    rw [hbp] at hbq
    cases hbq
  refine ⟨List.nodup_append.mpr ⟨hhits_nodup, hmiss_nodup, hdisj⟩, ?_⟩
  intro p hp
  have hfst : p.1 ∈ (hits_of fns deser st calls).map Prod.fst ∨
      p.1 ∈ (miss_results_of fns aT st calls).map Prod.fst := by
    rcases List.mem_append.mp hp with h | h
    · exact Or.inl (List.mem_map_of_mem Prod.fst h)
    · exact Or.inr (List.mem_map_of_mem Prod.fst h)
  have hrange : p.1 ∈ List.range calls.length := by
    rcases hfst with h | h
    · rw [hhfst] at h
      rw [← List.enum_map_fst]
      exact (List.Sublist.map Prod.fst (List.filter_sublist _)).subset h
    · have h2 : p.1 ∈ (misses_of fns st calls).map Prod.fst :=
        (((groups_perm fns st calls).map Prod.fst).mem_iff).mp (hmfst_sub.subset h)
      rw [← List.enum_map_fst]
      exact (List.Sublist.map Prod.fst (List.filter_sublist _)).subset h2
  exact List.mem_range.mp hrange

/-- A batch-capable function whose vectorized recomputation returns a single
result regardless of how many misses it is given. -/
def dShort : CacheDecorator Nat Nat Nat :=
  ⟨"rc", "s", fun _ => SerOut.str "y", some (fun a _ => SerOut.str (toString a)),
    fun v => toString v, fun s => s.length, 0, 0, true, fun a k => a + k,
    fun _ => [7]⟩

/-- Function table for the C4 counterexample. -/
def fnsShort : Nat → CacheDecorator Nat Nat Nat := fun _ => dShort

/-- Two pending calls for the C4 counterexample. -/
def callsShort : List (MCall Nat Nat) := [⟨0, 1, 0⟩, ⟨0, 2, 0⟩]

/-- Counterexample to C4 as stated: with two misses and a batch recompute
returning one result, the unpopulated request index 1 is silently dropped —
the batch returns a one-element list and no error is raised — instead of
being a fatal consistency fault. -/
theorem c4_counterexample :
    callsShort.length = 2 ∧
    mget_results fnsShort (fun _ => true) (fun s => s.length) initState callsShort = [7] ∧
    (mget_results fnsShort (fun _ => true) (fun s => s.length) initState
      callsShort).length = 1 := by
  have hf : firstOccur [0, 0] = [0] := by
    rw [show ([0, 0] : List Nat) = 0 :: [0] from rfl, firstOccur]
    have h0 : ([0] : List Nat).filter (fun y => decide (y ≠ 0)) = [] := by decide
    rw [h0, firstOccur]
  have hmf : (misses_of fnsShort initState callsShort).map
      (fun m : Nat × MCall Nat Nat => m.2.fn) = [0, 0] := by decide
  have h2 : miss_results_of fnsShort (fun _ => true) initState callsShort = [(0, 7)] := by
    rw [miss_results_of, hmf, hf]
    decide
  have h1 : mget_assembled fnsShort (fun _ => true) (fun s => s.length) initState
      callsShort = [(0, 7)] := by
    rw [mget_assembled_eq, h2]
    have hh : hits_of fnsShort (fun s => s.length) initState callsShort = [] := by decide
    rw [hh]
    rfl
  have h3 : (([(0, 7)] : List (Nat × Nat)).mergeSort (fun p q => decide (p.1 ≤ q.1))) =
      [(0, 7)] := List.perm_singleton.mp (List.mergeSort_perm _ _)
  refine ⟨rfl, ?_, ?_⟩
  · rw [mget_results, h1, h3]
    rfl
  · rw [mget_results, h1, h3]
    rfl

end PyRedisCache
